import Mathlib

/-!
# Open3D CPU hashmap (`src/Open3D/Core/Hashmap/HashmapCPU.hpp`)

A shallow embedding of `CPUHashmap<Hash, KeyEq>`: the constructor, the
destructor, `Insert`, `Search`, `Remove` and `CreateCPUHashmap`, over an
explicit byte-addressed memory and an explicit allocator state.

Conventions of the embedding:

* pointers are natural numbers (`nullptr` is `0`) and bytes are natural
  numbers; the caller's arrays and the table's buffers share one memory;
* `this->dsize_key_ * i` is a `uint32_t` product, taken modulo `2 ^ 32`;
* the loop counter `int i` cannot be incremented past `INT_MAX`: that
  undefined behaviour is the outcome `SignedOverflow`;
* a call returns a `Run`: the value or the exception, and the table and heap
  as the call leaves them (an exception does not roll anything back);
* the output arrays `iterators` and `masks` (obtained from `std::malloc` and
  handed to the caller) are lists; iteration `i` writes index `i`. The outcome
  of `Search` also records the two `std::malloc` requests that obtain them;
* `MemoryManager`, `KeyEq` and `utility::LogError` live outside this file and
  are modelled from the spec.
-/

deriving instance DecidableEq for Except

namespace open3d

/-! ## Machine constants -/

/-- Largest value of the C++ `int` loop counter `i`. -/
def INT_MAX : Nat := 2 ^ 31 - 1

/-- Modulus of `uint32_t` arithmetic (`dsize_key_ * i` is an unsigned product). -/
def UINT32_MOD : Nat := 2 ^ 32

/-! ## Handles -/

/-- The type `iterator_t`: a pair of raw pointers (key buffer, value buffer). -/
structure iterator_t where
  first : Nat
  second : Nat
deriving DecidableEq, Repr

/-- The value `iterator_t()`: both pointers null, the empty sentinel handle. -/
def iterator_t.empty : iterator_t := ⟨0, 0⟩

/-- The type `Device`: an opaque domain tag. -/
abbrev Device := Nat

/-! ## Memory and allocator -/

/-- Modelled from the spec: the state of the external Allocator collaborator
(`MemoryManager`, declared outside `HashmapCPU.hpp`). `mem` is the byte stored
at each address, `live` the buffers allocated and not yet freed (address and
size), `allocated` and `freed` the logs of every address returned by `Malloc`
and passed to `Free` (newest first), `brk` the first address never handed out,
`limit` the end of the heap. -/
structure Heap where
  mem : Nat → Nat
  live : List (Nat × Nat)
  allocated : List Nat
  freed : List Nat
  brk : Nat
  limit : Nat

/-- The bytes `mem[ptr], ..., mem[ptr + len - 1]`. -/
def readBytes (mem : Nat → Nat) (ptr len : Nat) : List Nat :=
  (List.range len).map (fun j => mem (ptr + j))

namespace MemoryManager

/-- Modelled from the spec: `Allocate(size, domain) -> buffer` of the external
Allocator. A fresh buffer is carved at `brk` (every buffer has its own non-null
address, also when `size = 0`); the allocation fails (`AllocationFailure`,
`none`) when the heap has no room left. -/
def Malloc (size : Nat) (_device : Device) (h : Heap) : Option (Nat × Heap) :=
  if h.brk + max size 1 ≤ h.limit then
    some (h.brk,
      { h with
        live := (h.brk, size) :: h.live
        allocated := h.brk :: h.allocated
        brk := h.brk + max size 1 })
  else none

/-- Modelled from the spec: `Free(buffer, domain)` of the external Allocator.
The buffer at `ptr` leaves the live set and the call is logged. -/
def Free (ptr : Nat) (_device : Device) (h : Heap) : Heap :=
  { h with
    live := h.live.eraseP (fun b => b.1 == ptr)
    freed := ptr :: h.freed }

/-- Modelled from the spec: `Copy(dst, dst_domain, src, src_domain, size)` of
the external Allocator: `size` bytes at `src` are written at `dst`. -/
def Memcpy (dst : Nat) (_dst_device : Device) (src : Nat) (_src_device : Device)
    (size : Nat) (h : Heap) : Heap :=
  { h with
    mem := fun a => if dst ≤ a ∧ a < dst + size then h.mem (src + (a - dst)) else h.mem a }

end MemoryManager

/-! ## The functor pair and the entry store -/

/-- Modelled from the spec: the template parameter `KeyEq`, constructed with
`dsize_key` (spec 4.2): `KeyEq(ptr_a, ptr_b)` is the byte-wise comparison of
`dsize_key` bytes at the two addresses. -/
def KeyEq (dsize_key : Nat) (mem : Nat → Nat) (ptr_a ptr_b : Nat) : Bool :=
  decide (readBytes mem ptr_a dsize_key = readBytes mem ptr_b dsize_key)

/-- The type `std::unordered_map<uint8_t*, uint8_t*, Hash, KeyEq>`: the stored
(key pointer, value pointer) pairs. `Hash` only places the pairs in buckets; it
agrees with `KeyEq` (both read the same `dsize_key` bytes), so membership is
decided by `KeyEq` alone. -/
abbrev unordered_map := List (Nat × Nat)

/-- The call `cpu_hashmap_impl_->find(key)`: the stored pair whose key buffer
compares equal to `key`, `none` for `end()`. -/
def unordered_map.find (m : unordered_map) (dsize_key : Nat) (mem : Nat → Nat)
    (key : Nat) : Option (Nat × Nat) :=
  List.find? (fun e => KeyEq dsize_key mem e.1 key) m

/-- The call `cpu_hashmap_impl_->insert({k, v})`: the pair is stored unless a
stored key compares equal; the flag is `res.second`. -/
def unordered_map.insert (m : unordered_map) (dsize_key : Nat) (mem : Nat → Nat)
    (kv : Nat × Nat) : unordered_map × Bool :=
  match m.find dsize_key mem kv.1 with
  | some _ => (m, false)
  | none => (kv :: m, true)

/-! ## The table -/

/-- The class `CPUHashmap<Hash, KeyEq>`: the fields of the base class
`Hashmap` (`max_keys_`, `dsize_key_`, `dsize_value_`, `device_`), the entry
store `cpu_hashmap_impl_` and the member `kv_pairs_` walked by the destructor
(declared in `HashmapCPU.h`; no function of `HashmapCPU.hpp` writes to it). -/
structure CPUHashmap where
  max_keys_ : Nat
  dsize_key_ : Nat
  dsize_value_ : Nat
  device_ : Device
  cpu_hashmap_impl_ : unordered_map
  kv_pairs_ : List iterator_t

/-- What a call can throw: an allocation failure of `MemoryManager::Malloc`,
the error raised by `utility::LogError`, and the undefined behaviour of
incrementing the `int` counter past `INT_MAX`. -/
inductive Exception where
  | AllocationFailure
  | LogError (msg : String)
  | SignedOverflow
deriving DecidableEq, Repr

/-- The outcome of a call: the value returned or the exception thrown, with
the table and the heap as the call leaves them. -/
structure Run (α : Type) where
  result : Except Exception α
  table : CPUHashmap
  heap : Heap

/-- Modelled from the spec: `utility::LogError` (declared outside
`HashmapCPU.hpp`), the diagnostic/error sink that signals an error to the
caller instead of returning. -/
def utility.LogError (msg : String) : Except Exception Unit :=
  Except.error (Exception.LogError msg)

/-- The constant `sizeof(iterator_t)`: two pointers of 8 bytes. -/
def sizeof_iterator_t : Nat := 16

/-- The constant `sizeof(uint8_t)`. -/
def sizeof_uint8_t : Nat := 1

/-- The call `std::malloc(size)` of the C library, as far as a call of the
table observes it: a block of `size` bytes is obtained from the C heap, and
joins `blocks`, the sizes of the blocks obtained so far, in the order of the
requests. The C heap is apart from the heap of `MemoryManager` and is taken to
grant every request. -/
def std.malloc (size : Nat) (blocks : List Nat) : List Nat :=
  blocks ++ [size]

/-- The outcome of `Search`: the `Run` of the call and `malloced`, the sizes
in bytes of the blocks the call obtained from `std::malloc` and did not free
(its two output arrays, handed to the caller). -/
structure SearchRun extends Run (List iterator_t × List Nat) where
  malloced : List Nat

namespace CPUHashmap

/-- The constructor `CPUHashmap::CPUHashmap`: an empty entry store bound to
`dsize_key`; `kv_pairs_` is default-constructed. -/
def ctor (max_keys dsize_key dsize_value : Nat) (device : Device) : CPUHashmap :=
  { max_keys_ := max_keys
    dsize_key_ := dsize_key
    dsize_value_ := dsize_value
    device_ := device
    cpu_hashmap_impl_ := []
    kv_pairs_ := [] }

/-- The destructor `CPUHashmap::~CPUHashmap`: frees both buffers of every
pair of `kv_pairs_`. -/
def dtor (T : CPUHashmap) (h : Heap) : Heap :=
  T.kv_pairs_.foldl
    (fun h kv_pair =>
      MemoryManager.Free kv_pair.second T.device_
        (MemoryManager.Free kv_pair.first T.device_ h))
    h

/-- The address `(uint8_t*)input_keys + this->dsize_key_ * i` of `Insert` and
`Search`: the product is a `uint32_t`. -/
def src_key (T : CPUHashmap) (input_keys i : Nat) : Nat :=
  input_keys + (T.dsize_key_ * i) % UINT32_MOD

/-- The address `(uint8_t*)input_values + this->dsize_value_ * i` of `Insert`. -/
def src_value (T : CPUHashmap) (input_values i : Nat) : Nat :=
  input_values + (T.dsize_value_ * i) % UINT32_MOD

/-- The body of the loop of `Insert` for index `i`: the handle and the mask
written at index `i`. -/
def InsertBody (T : CPUHashmap) (h : Heap) (input_keys input_values i : Nat) :
    Run (iterator_t × Nat) :=
  match MemoryManager.Malloc T.dsize_key_ T.device_ h with
  | none => ⟨Except.error Exception.AllocationFailure, T, h⟩
  | some (dst_key, h1) =>
    match MemoryManager.Malloc T.dsize_value_ T.device_ h1 with
    | none => ⟨Except.error Exception.AllocationFailure, T, h1⟩
    | some (dst_value, h2) =>
      let h3 := MemoryManager.Memcpy dst_key T.device_ (T.src_key input_keys i) T.device_
        T.dsize_key_ h2
      let h4 := MemoryManager.Memcpy dst_value T.device_ (T.src_value input_values i)
        T.device_ T.dsize_value_ h3
      let res := T.cpu_hashmap_impl_.insert T.dsize_key_ h4.mem (dst_key, dst_value)
      if res.2 then
        ⟨Except.ok (⟨dst_key, dst_value⟩, 1), { T with cpu_hashmap_impl_ := res.1 }, h4⟩
      else
        let h5 := MemoryManager.Free dst_key T.device_ h4
        let h6 := MemoryManager.Free dst_value T.device_ h5
        ⟨Except.ok (iterator_t.empty, 0), { T with cpu_hashmap_impl_ := res.1 }, h6⟩

/-- The loop `for (int i = 0; i < input_key_size; ++i)` of `Insert` over the
remaining indices: the body, then `++i`, which overflows the `int` at
`INT_MAX`. Index `i` of the output arrays is written in iteration `i`. -/
def InsertLoop (input_keys input_values : Nat) :
    List Nat → CPUHashmap → Heap → Run (List iterator_t × List Nat)
  | [], T, h => ⟨Except.ok ([], []), T, h⟩
  | i :: rest, T, h =>
    match InsertBody T h input_keys input_values i with
    | ⟨Except.error e, T1, h1⟩ => ⟨Except.error e, T1, h1⟩
    | ⟨Except.ok (it, m), T1, h1⟩ =>
      if i = INT_MAX then ⟨Except.error Exception.SignedOverflow, T1, h1⟩
      else
        match InsertLoop input_keys input_values rest T1 h1 with
        | ⟨Except.error e, T2, h2⟩ => ⟨Except.error e, T2, h2⟩
        | ⟨Except.ok (its, ms), T2, h2⟩ => ⟨Except.ok (it :: its, m :: ms), T2, h2⟩

/-- The method `CPUHashmap::Insert(input_keys, input_values, input_key_size)`:
the pair `(iterators, masks)`. The two output arrays are the lists returned;
the heap of the outcome is the heap of `MemoryManager`, where the buffers of
the entries live. -/
def Insert (T : CPUHashmap) (h : Heap) (input_keys input_values input_key_size : Nat) :
    Run (List iterator_t × List Nat) :=
  InsertLoop input_keys input_values (List.range input_key_size) T h

/-- The body of the loop of `Search` for index `i`. -/
def SearchBody (T : CPUHashmap) (h : Heap) (input_keys i : Nat) : iterator_t × Nat :=
  match T.cpu_hashmap_impl_.find T.dsize_key_ h.mem (T.src_key input_keys i) with
  | none => (iterator_t.empty, 0)
  | some iter => (⟨iter.1, iter.2⟩, 1)

/-- The loop `for (int i = 0; i < input_key_size; ++i)` of `Search`. -/
def SearchLoop (input_keys : Nat) :
    List Nat → CPUHashmap → Heap → Run (List iterator_t × List Nat)
  | [], T, h => ⟨Except.ok ([], []), T, h⟩
  | i :: rest, T, h =>
    let r := SearchBody T h input_keys i
    if i = INT_MAX then ⟨Except.error Exception.SignedOverflow, T, h⟩
    else
      match SearchLoop input_keys rest T h with
      | ⟨Except.error e, T2, h2⟩ => ⟨Except.error e, T2, h2⟩
      | ⟨Except.ok (its, ms), T2, h2⟩ => ⟨Except.ok (r.1 :: its, r.2 :: ms), T2, h2⟩

/-- The method `CPUHashmap::Search(input_keys, input_key_size)`: the two
output arrays are obtained from `std::malloc` (`input_key_size *
sizeof(iterator_t)` bytes for `iterators`, `input_key_size * sizeof(uint8_t)`
bytes for `masks`), the loop fills them, and the pair `(iterators, masks)` is
returned. -/
def Search (T : CPUHashmap) (h : Heap) (input_keys input_key_size : Nat) : SearchRun :=
  let blocks1 := std.malloc (input_key_size * sizeof_iterator_t) []
  let blocks2 := std.malloc (input_key_size * sizeof_uint8_t) blocks1
  { toRun := SearchLoop input_keys (List.range input_key_size) T h
    malloced := blocks2 }

/-- The method `CPUHashmap::Remove(input_keys, input_key_size)`: the error
sink is invoked; `masks = nullptr` would be returned after it. -/
def Remove (T : CPUHashmap) (h : Heap) (_input_keys _input_key_size : Nat) : Run Nat :=
  match utility.LogError "Unimplemented method" with
  | Except.error e => ⟨Except.error e, T, h⟩
  | Except.ok _ => ⟨Except.ok 0, T, h⟩

/-! ## Well-formed states -/

/-- Bytes of `max(dsize_key_, 1) + max(dsize_value_, 1)`: what one element of
`Insert` takes from the heap. -/
def stride (T : CPUHashmap) : Nat := max T.dsize_key_ 1 + max T.dsize_value_ 1

/-- The key bytes of record `i` of a batch, as `Insert` and `Search` address it. -/
def keyAt (T : CPUHashmap) (h : Heap) (input_keys i : Nat) : List Nat :=
  readBytes h.mem (T.src_key input_keys i) T.dsize_key_

/-- The value bytes of record `i` of a batch, as `Insert` addresses it. -/
def valueAt (T : CPUHashmap) (h : Heap) (input_values i : Nat) : List Nat :=
  readBytes h.mem (T.src_value input_values i) T.dsize_value_

/-- The state invariant of a table and its heap: allocated buffers lie below
`brk` at distinct non-null addresses, every stored pair owns two live buffers
of the table's sizes, the buffers of the stored pairs are pairwise distinct,
and no two stored keys compare equal. -/
structure Valid (T : CPUHashmap) (h : Heap) : Prop where
  brk_pos : 0 < h.brk
  live_lt : ∀ b ∈ h.live, 0 < b.1 ∧ b.1 + max b.2 1 ≤ h.brk
  live_nodup : (h.live.map Prod.fst).Nodup
  owned : ∀ e ∈ T.cpu_hashmap_impl_,
    (e.1, T.dsize_key_) ∈ h.live ∧ (e.2, T.dsize_value_) ∈ h.live
  distinct : (T.cpu_hashmap_impl_.map Prod.fst ++ T.cpu_hashmap_impl_.map Prod.snd).Nodup
  unique : T.cpu_hashmap_impl_.Pairwise
    (fun e1 e2 => KeyEq T.dsize_key_ h.mem e1.1 e2.1 = false)

/-- The caller's arrays of a batch over the index list `idx` lie in memory
handed out before the call (below `brk`), so no fresh buffer overlaps them. -/
def BatchBelow (T : CPUHashmap) (h : Heap) (input_keys input_values : Nat)
    (idx : List Nat) : Prop :=
  ∀ i ∈ idx, T.src_key input_keys i + T.dsize_key_ ≤ h.brk ∧
    T.src_value input_values i + T.dsize_value_ ≤ h.brk

end CPUHashmap

open CPUHashmap

/-! ## States of the loop of `Insert` -/

/-- The memory after the two copies of the body of `Insert` for index `i`. -/
def copied (T : CPUHashmap) (h : Heap) (input_keys input_values i : Nat) : Nat → Nat :=
  (MemoryManager.Memcpy (h.brk + max T.dsize_key_ 1) T.device_ (T.src_value input_values i)
    T.device_ T.dsize_value_
    (MemoryManager.Memcpy h.brk T.device_ (T.src_key input_keys i) T.device_
      T.dsize_key_ h)).mem

/-- The table after the body of `Insert` retained an element: the pair of the
two fresh buffers is stored. -/
def tableKept (T : CPUHashmap) (h : Heap) : CPUHashmap :=
  { T with cpu_hashmap_impl_ := (h.brk, h.brk + max T.dsize_key_ 1) :: T.cpu_hashmap_impl_ }

/-- The heap after the body of `Insert` retained element `i`. -/
def heapKept (T : CPUHashmap) (h : Heap) (input_keys input_values i : Nat) : Heap :=
  { mem := copied T h input_keys input_values i
    live := (h.brk + max T.dsize_key_ 1, T.dsize_value_) :: (h.brk, T.dsize_key_) :: h.live
    allocated := (h.brk + max T.dsize_key_ 1) :: h.brk :: h.allocated
    freed := h.freed
    brk := h.brk + max T.dsize_key_ 1 + max T.dsize_value_ 1
    limit := h.limit }

/-- The heap after the body of `Insert` released the buffers of element `i`. -/
def heapDropped (T : CPUHashmap) (h : Heap) (input_keys input_values i : Nat) : Heap :=
  { mem := copied T h input_keys input_values i
    live := h.live
    allocated := (h.brk + max T.dsize_key_ 1) :: h.brk :: h.allocated
    freed := (h.brk + max T.dsize_key_ 1) :: h.brk :: h.freed
    brk := h.brk + max T.dsize_key_ 1 + max T.dsize_value_ 1
    limit := h.limit }

/-- The heap when the value allocation of an element failed: its key buffer
stays allocated. -/
def heapLeaked (T : CPUHashmap) (h : Heap) : Heap :=
  { h with
    live := (h.brk, T.dsize_key_) :: h.live
    allocated := h.brk :: h.allocated
    brk := h.brk + max T.dsize_key_ 1 }

/-- How a call may change the state: the heap only grows above the old `brk`,
memory below it keeps its bytes, and the table gains pairs of fresh buffers. -/
structure Extends (T : CPUHashmap) (h : Heap) (T2 : CPUHashmap) (h2 : Heap) : Prop where
  brk_le : h.brk ≤ h2.brk
  limit_eq : h2.limit = h.limit
  frame : ∀ a, a < h.brk → h2.mem a = h.mem a
  table_eq : T2 = { T with cpu_hashmap_impl_ := T2.cpu_hashmap_impl_ }
  impl_ext : ∃ news, T2.cpu_hashmap_impl_ = news ++ T.cpu_hashmap_impl_ ∧
    ∀ e ∈ news, h.brk ≤ e.1 ∧ h.brk ≤ e.2
  live_ext : ∃ bufs, h2.live = bufs ++ h.live ∧ ∀ b ∈ bufs, h.brk ≤ b.1
  allocated_ext : ∃ A, h2.allocated = A ++ h.allocated ∧ ∀ a ∈ A, h.brk ≤ a ∧ a < h2.brk
  freed_ext : ∃ F, h2.freed = F ++ h.freed ∧ ∀ a ∈ F, h.brk ≤ a ∧ a < h2.brk

/-- The runs of the loop of `Insert` in which every allocation succeeds and
the counter does not overflow, over the indices still to process: from a table
and a heap to the handles, the masks, the table and the heap after the loop.
An element whose key compares equal to no stored key is retained (`kept`),
any other has its two buffers released (`dropped`). -/
inductive InsertRun (ik iv : Nat) :
    List Nat → CPUHashmap → Heap → List iterator_t → List Nat → CPUHashmap → Heap → Prop
  | done (T : CPUHashmap) (h : Heap) : InsertRun ik iv [] T h [] [] T h
  | kept {i : Nat} {rest : List Nat} {T : CPUHashmap} {h : Heap} {its : List iterator_t}
      {ms : List Nat} {T2 : CPUHashmap} {h2 : Heap}
      (hfind : T.cpu_hashmap_impl_.find T.dsize_key_ h.mem (T.src_key ik i) = none)
      (hrest : InsertRun ik iv rest (tableKept T h) (heapKept T h ik iv i) its ms T2 h2) :
      InsertRun ik iv (i :: rest) T h
        (⟨h.brk, h.brk + max T.dsize_key_ 1⟩ :: its) (1 :: ms) T2 h2
  | dropped {i : Nat} {rest : List Nat} {T : CPUHashmap} {h : Heap} {its : List iterator_t}
      {ms : List Nat} {T2 : CPUHashmap} {h2 : Heap} (e : Nat × Nat)
      (hfind : T.cpu_hashmap_impl_.find T.dsize_key_ h.mem (T.src_key ik i) = some e)
      (hrest : InsertRun ik iv rest T (heapDropped T h ik iv i) its ms T2 h2) :
      InsertRun ik iv (i :: rest) T h (iterator_t.empty :: its) (0 :: ms) T2 h2

/-- Element `i` of a batch is fresh for a table: its key compares equal to no
stored key and to no key of the earlier indices `pre` of the batch. -/
def Fresh (T : CPUHashmap) (h : Heap) (input_keys : Nat) (pre : List Nat) (i : Nat) : Prop :=
  (∀ e ∈ T.cpu_hashmap_impl_,
    KeyEq T.dsize_key_ h.mem e.1 (T.src_key input_keys i) = false) ∧
  (∀ j ∈ pre,
    KeyEq T.dsize_key_ h.mem (T.src_key input_keys j) (T.src_key input_keys i) = false)

/-- What the loop of `Insert` wrote at position `t` for index `i`, against
the state `T`, `h` before the loop and `T2`, `h2` after it: a retained element
has mask `1` and a handle on a stored pair of fresh buffers holding its key
and value bytes, any other has mask `0` and the empty handle. -/
def SlotSpec (T : CPUHashmap) (h : Heap) (T2 : CPUHashmap) (h2 : Heap) (ik iv : Nat)
    (pre : List Nat) (i : Nat) (it : Option iterator_t) (m : Option Nat) : Prop :=
  (Fresh T h ik pre i →
    m = some 1 ∧ ∃ x, it = some x ∧ (x.first, x.second) ∈ T2.cpu_hashmap_impl_ ∧
      (x.first, x.second) ∉ T.cpu_hashmap_impl_ ∧ h.brk ≤ x.first ∧ h.brk ≤ x.second ∧
      readBytes h2.mem x.first T.dsize_key_ = keyAt T h ik i ∧
      readBytes h2.mem x.second T.dsize_value_ = valueAt T h iv i) ∧
  (¬ Fresh T h ik pre i → m = some 0 ∧ it = some iterator_t.empty)

/-- The states a table and its heap can reach: from the constructor on a
well-formed heap, through calls of `Insert` (batches within the range of the
`int` counter, arrays below `brk`; any outcome), `Search` and `Remove`, and
through writes of the caller to memory outside the buffers owned by the table.
`hist` collects the key bytes of every record of every `Insert` batch. -/
inductive Reachable : CPUHashmap → Heap → List (List Nat) → Prop
  | create (max_keys dsize_key dsize_value : Nat) (device : Device) (h : Heap)
      (hh : Valid (CPUHashmap.ctor max_keys dsize_key dsize_value device) h) :
      Reachable (CPUHashmap.ctor max_keys dsize_key dsize_value device) h []
  | insert {T : CPUHashmap} {h : Heap} {hist : List (List Nat)}
      (input_keys input_values input_key_size : Nat) (hR : Reachable T h hist)
      (hn : input_key_size ≤ INT_MAX)
      (hB : BatchBelow T h input_keys input_values (List.range input_key_size)) :
      Reachable (T.Insert h input_keys input_values input_key_size).table
        (T.Insert h input_keys input_values input_key_size).heap
        (hist ++ (List.range input_key_size).map (keyAt T h input_keys))
  | search {T : CPUHashmap} {h : Heap} {hist : List (List Nat)}
      (input_keys input_key_size : Nat) (hR : Reachable T h hist) :
      Reachable (T.Search h input_keys input_key_size).table
        (T.Search h input_keys input_key_size).heap hist
  | remove {T : CPUHashmap} {h : Heap} {hist : List (List Nat)}
      (input_keys input_key_size : Nat) (hR : Reachable T h hist) :
      Reachable (T.Remove h input_keys input_key_size).table
        (T.Remove h input_keys input_key_size).heap hist
  | write {T : CPUHashmap} {h : Heap} {hist : List (List Nat)} (mem2 : Nat → Nat)
      (hR : Reachable T h hist)
      (hown : ∀ e ∈ T.cpu_hashmap_impl_,
        (∀ j, j < T.dsize_key_ → mem2 (e.1 + j) = h.mem (e.1 + j)) ∧
        (∀ j, j < T.dsize_value_ → mem2 (e.2 + j) = h.mem (e.2 + j))) :
      Reachable T { h with mem := mem2 } hist

/-- The handles of the elements of a batch that got mask `1`. -/
def retained : List iterator_t → List Nat → List iterator_t
  | it :: its, m :: ms => if m = 1 then it :: retained its ms else retained its ms
  | _, _ => []

/-- The key and value buffers (address and size) behind a list of handles. -/
def buffersOf (T : CPUHashmap) (won : List iterator_t) : List (Nat × Nat) :=
  won.flatMap (fun x => [(x.first, T.dsize_key_), (x.second, T.dsize_value_)])

/-- The key and value buffer addresses behind a list of handles. -/
def addressesOf (won : List iterator_t) : List Nat :=
  won.flatMap (fun x => [x.first, x.second])

/-- The factory `CreateCPUHashmap`. -/
def CreateCPUHashmap (max_keys dsize_key dsize_value : Nat) (device : Device) : CPUHashmap :=
  CPUHashmap.ctor max_keys dsize_key dsize_value device

/-! ## The scenario of the spec -/

/-- The four bytes of a 32-bit integer, least significant first. -/
def le32 (v : Nat) : List Nat :=
  [v % 256, v / 256 % 256, v / 65536 % 256, v / 16777216 % 256]

/-- The caller's memory in the scenario of the spec (32-bit records): the
keys `[1, 2, 1]` at address 16, the values `[10, 20, 30]` at address 32, the
search keys `[2, 3]` at address 48. -/
def scenarioBytes : List Nat :=
  List.replicate 16 0
    ++ (le32 1 ++ le32 2 ++ le32 1 ++ le32 0)
    ++ (le32 10 ++ le32 20 ++ le32 30 ++ le32 0)
    ++ (le32 2 ++ le32 3)

/-- The heap of the scenario: nothing allocated yet, the caller's arrays below
`brk = 64`, room up to address 1024. -/
def scenarioHeap : Heap :=
  { mem := fun a => scenarioBytes.getD a 0
    live := []
    allocated := []
    freed := []
    brk := 64
    limit := 1024 }

/-- The table of the scenario: `dsize_key = 4`, `dsize_value = 4`, capacity
hint 16. -/
def scenarioTable : CPUHashmap := CreateCPUHashmap 16 4 4 0

/-- The heap of the scenario with room for three buffers only: the fourth
allocation fails. -/
def tightHeap : Heap := { scenarioHeap with limit := 78 }

/-- The scenario on the tight heap after `Insert` of the first record alone. -/
def tightAfterOne : Run (List iterator_t × List Nat) :=
  scenarioTable.Insert tightHeap 16 32 1

/-- The scenario after `Insert` of the keys `[1, 2, 1]` with the values
`[10, 20, 30]`. -/
def scenarioAfter : Run (List iterator_t × List Nat) :=
  scenarioTable.Insert scenarioHeap 16 32 3

/-- A table whose records fill 64 KiB each: `dsize_key = dsize_value = 65536`. -/
def wideTable : CPUHashmap := CreateCPUHashmap 16 65536 65536 0

/-- The scenario after a second `Insert`, of the keys `[2, 3]` with the values
`[10, 20]`. -/
def scenarioLater : Run (List iterator_t × List Nat) :=
  scenarioAfter.table.Insert scenarioAfter.heap 48 32 2

/-- Address `a` lies inside the key array of a batch: in the `dsize_key_`
bytes of one of its `n` keys, as `Insert` and `Search` address them. -/
def InKeyArray (T : CPUHashmap) (input_keys n a : Nat) : Prop :=
  ∃ i, i < n ∧ T.src_key input_keys i ≤ a ∧ a < T.src_key input_keys i + T.dsize_key_

/-- Address `a` lies in a buffer owned by the table: the key buffer or the
value buffer of a stored pair. -/
def Owned (T : CPUHashmap) (a : Nat) : Prop :=
  ∃ e ∈ T.cpu_hashmap_impl_,
    (e.1 ≤ a ∧ a < e.1 + max T.dsize_key_ 1) ∨ (e.2 ≤ a ∧ a < e.2 + max T.dsize_value_ 1)

/-- The states that come later than a given state of a table and its heap:
after any further calls of `Insert` (within the range of the `int` counter; any
outcome), `Search` and `Remove`, and writes of the caller to memory outside
the buffers owned by the table. -/
inductive Later : CPUHashmap → Heap → CPUHashmap → Heap → Prop
  | refl (T : CPUHashmap) (h : Heap) : Later T h T h
  | insert {T : CPUHashmap} {h : Heap} {T3 : CPUHashmap} {h3 : Heap}
      (input_keys input_values input_key_size : Nat) (hL : Later T h T3 h3)
      (hn : input_key_size ≤ INT_MAX) :
      Later T h (T3.Insert h3 input_keys input_values input_key_size).table
        (T3.Insert h3 input_keys input_values input_key_size).heap
  | search {T : CPUHashmap} {h : Heap} {T3 : CPUHashmap} {h3 : Heap}
      (input_keys input_key_size : Nat) (hL : Later T h T3 h3) :
      Later T h (T3.Search h3 input_keys input_key_size).table
        (T3.Search h3 input_keys input_key_size).heap
  | remove {T : CPUHashmap} {h : Heap} {T3 : CPUHashmap} {h3 : Heap}
      (input_keys input_key_size : Nat) (hL : Later T h T3 h3) :
      Later T h (T3.Remove h3 input_keys input_key_size).table
        (T3.Remove h3 input_keys input_key_size).heap
  | write {T : CPUHashmap} {h : Heap} {T3 : CPUHashmap} {h3 : Heap} (mem2 : Nat → Nat)
      (hL : Later T h T3 h3)
      (hown : ∀ e ∈ T3.cpu_hashmap_impl_,
        (∀ j, j < T3.dsize_key_ → mem2 (e.1 + j) = h3.mem (e.1 + j)) ∧
        (∀ j, j < T3.dsize_value_ → mem2 (e.2 + j) = h3.mem (e.2 + j))) :
      Later T h T3 { h3 with mem := mem2 }

end open3d

namespace open3d

open CPUHashmap

/-! ## The body of `Insert` -/

theorem readBytes_congr {m1 m2 : Nat → Nat} {p q len : Nat}
    (hh : ∀ j, j < len → m1 (p + j) = m2 (q + j)) :
    readBytes m1 p len = readBytes m2 q len := by
  unfold readBytes
  apply List.map_congr_left
  intro j hj
  exact hh j (List.mem_range.mp hj)

theorem readBytes_frame {m1 m2 : Nat → Nat} {p len b : Nat}
    (hf : ∀ a, a < b → m1 a = m2 a) (hp : p + len ≤ b) :
    readBytes m1 p len = readBytes m2 p len :=
  readBytes_congr (fun j hj => hf (p + j) (by omega))

theorem copied_frame (T : CPUHashmap) (h : Heap) (ik iv i a : Nat) (ha : a < h.brk) :
    copied T h ik iv i a = h.mem a := by
  simp only [copied, MemoryManager.Memcpy]
  rw [if_neg (by omega), if_neg (by omega)]

theorem copied_key (T : CPUHashmap) (h : Heap) (ik iv i : Nat) :
    readBytes (copied T h ik iv i) h.brk T.dsize_key_ = keyAt T h ik i := by
  unfold keyAt
  apply readBytes_congr
  intro j hj
  simp only [copied, MemoryManager.Memcpy]
  rw [if_neg (by omega), if_pos (by omega)]
  congr 1
  omega

theorem copied_value (T : CPUHashmap) (h : Heap) (ik iv i : Nat)
    (hv : T.src_value iv i + T.dsize_value_ ≤ h.brk) :
    readBytes (copied T h ik iv i) (h.brk + max T.dsize_key_ 1) T.dsize_value_
      = valueAt T h iv i := by
  unfold valueAt
  apply readBytes_congr
  intro j hj
  simp only [copied, MemoryManager.Memcpy]
  rw [if_pos (by omega), if_neg (by omega)]
  congr 1
  omega

theorem CPUHashmap.Valid.key_below {T : CPUHashmap} {h : Heap} (hV : Valid T h) {e : Nat × Nat}
    (he : e ∈ T.cpu_hashmap_impl_) : 0 < e.1 ∧ e.1 + T.dsize_key_ ≤ h.brk := by
  have h1 := hV.live_lt _ (hV.owned e he).1
  simp only at h1
  omega

theorem CPUHashmap.Valid.value_below {T : CPUHashmap} {h : Heap} (hV : Valid T h) {e : Nat × Nat}
    (he : e ∈ T.cpu_hashmap_impl_) : 0 < e.2 ∧ e.2 + T.dsize_value_ ≤ h.brk := by
  have h1 := hV.live_lt _ (hV.owned e he).2
  simp only at h1
  omega

theorem find_congr (dk : Nat) (mem1 mem2 : Nat → Nat) (k1 k2 : Nat) (m : unordered_map)
    (hh : ∀ e ∈ m, KeyEq dk mem1 e.1 k1 = KeyEq dk mem2 e.1 k2) :
    m.find dk mem1 k1 = m.find dk mem2 k2 := by
  unfold unordered_map.find
  induction m with
  | nil => rfl
  | cons e rest ih =>
    simp only [List.find?_cons, hh e (List.mem_cons_self e rest),
      ih (fun y hy => hh y (List.mem_cons_of_mem e hy))]

theorem find_congr_mem {T : CPUHashmap} {h : Heap} (hV : Valid T h) {m2 : Nat → Nat}
    (hf : ∀ a, a < h.brk → m2 a = h.mem a) {p q : Nat}
    (hpq : readBytes m2 p T.dsize_key_ = readBytes h.mem q T.dsize_key_) :
    T.cpu_hashmap_impl_.find T.dsize_key_ m2 p
      = T.cpu_hashmap_impl_.find T.dsize_key_ h.mem q := by
  apply find_congr
  intro e he
  unfold KeyEq
  rw [hpq, readBytes_frame hf (hV.key_below he).2]

theorem InsertBody_eq {T : CPUHashmap} {h : Heap} (hV : Valid T h) (ik iv i : Nat)
    (hroom : h.brk + stride T ≤ h.limit) :
    InsertBody T h ik iv i =
      match T.cpu_hashmap_impl_.find T.dsize_key_ h.mem (T.src_key ik i) with
      | none =>
        ⟨Except.ok (⟨h.brk, h.brk + max T.dsize_key_ 1⟩, 1), tableKept T h,
          heapKept T h ik iv i⟩
      | some _ => ⟨Except.ok (iterator_t.empty, 0), T, heapDropped T h ik iv i⟩ := by
  unfold stride at hroom
  have hfind := find_congr_mem hV (copied_frame T h ik iv i) (copied_key T h ik iv i)
  unfold keyAt at hfind
  have hr1 : h.brk + max T.dsize_key_ 1 ≤ h.limit := by omega
  have hr2 : h.brk + max T.dsize_key_ 1 + max T.dsize_value_ 1 ≤ h.limit := by omega
  have hne : ¬ (h.brk + max T.dsize_key_ 1 = h.brk) := by omega
  unfold InsertBody
  simp only [MemoryManager.Malloc, if_pos hr1, if_pos hr2, unordered_map.insert]
  simp only [copied, MemoryManager.Memcpy] at hfind
  simp only [MemoryManager.Memcpy]
  rw [hfind]
  cases hc : T.cpu_hashmap_impl_.find T.dsize_key_ h.mem (T.src_key ik i) with
  | none => simp [tableKept, heapKept, copied, MemoryManager.Memcpy]
  | some e =>
    simp [heapDropped, copied, MemoryManager.Memcpy, MemoryManager.Free, List.eraseP_cons, hne]

theorem InsertBody_fail_key {T : CPUHashmap} {h : Heap} (ik iv i : Nat)
    (hroom : ¬ (h.brk + max T.dsize_key_ 1 ≤ h.limit)) :
    InsertBody T h ik iv i = ⟨Except.error Exception.AllocationFailure, T, h⟩ := by
  unfold InsertBody
  simp only [MemoryManager.Malloc, if_neg hroom]

theorem InsertBody_fail_value {T : CPUHashmap} {h : Heap} (ik iv i : Nat)
    (hr1 : h.brk + max T.dsize_key_ 1 ≤ h.limit) (hr2 : ¬ (h.brk + stride T ≤ h.limit)) :
    InsertBody T h ik iv i
      = ⟨Except.error Exception.AllocationFailure, T, heapLeaked T h⟩ := by
  unfold stride at hr2
  have hr3 : ¬ (h.brk + max T.dsize_key_ 1 + max T.dsize_value_ 1 ≤ h.limit) := by omega
  unfold InsertBody
  simp only [MemoryManager.Malloc, if_pos hr1, if_neg hr3, heapLeaked]

theorem Extends.refl (T : CPUHashmap) (h : Heap) : Extends T h T h where
  brk_le := Nat.le_refl _
  limit_eq := rfl
  frame := fun _ _ => rfl
  table_eq := rfl
  impl_ext := ⟨[], rfl, by simp⟩
  live_ext := ⟨[], rfl, by simp⟩
  allocated_ext := ⟨[], rfl, by simp⟩
  freed_ext := ⟨[], rfl, by simp⟩

theorem Extends.trans {T T1 T2 : CPUHashmap} {h h1 h2 : Heap}
    (a : Extends T h T1 h1) (b : Extends T1 h1 T2 h2) : Extends T h T2 h2 := by
  obtain ⟨n1, hn1, hn1b⟩ := a.impl_ext
  obtain ⟨n2, hn2, hn2b⟩ := b.impl_ext
  obtain ⟨l1, hl1, hl1b⟩ := a.live_ext
  obtain ⟨l2, hl2, hl2b⟩ := b.live_ext
  obtain ⟨a1, ha1, ha1b⟩ := a.allocated_ext
  obtain ⟨a2, ha2, ha2b⟩ := b.allocated_ext
  obtain ⟨f1, hf1, hf1b⟩ := a.freed_ext
  obtain ⟨f2, hf2, hf2b⟩ := b.freed_ext
  have hle := a.brk_le
  have hle2 := b.brk_le
  refine ⟨Nat.le_trans hle hle2, by rw [b.limit_eq, a.limit_eq], ?_, ?_, ?_, ?_, ?_, ?_⟩
  · intro x hx
    rw [b.frame x (by omega), a.frame x hx]
  · have h1 := a.table_eq
    have h2 := b.table_eq
    rw [h2, h1]
  · refine ⟨n2 ++ n1, by rw [hn2, hn1, List.append_assoc], ?_⟩
    intro e he
    rcases List.mem_append.mp he with he | he
    · have := hn2b e he; omega
    · exact hn1b e he
  · refine ⟨l2 ++ l1, by rw [hl2, hl1, List.append_assoc], ?_⟩
    intro e he
    rcases List.mem_append.mp he with he | he
    · have := hl2b e he; omega
    · exact hl1b e he
  · refine ⟨a2 ++ a1, by rw [ha2, ha1, List.append_assoc], ?_⟩
    intro e he
    rcases List.mem_append.mp he with he | he
    · have := ha2b e he; omega
    · have := ha1b e he; omega
  · refine ⟨f2 ++ f1, by rw [hf2, hf1, List.append_assoc], ?_⟩
    intro e he
    rcases List.mem_append.mp he with he | he
    · have := hf2b e he; omega
    · have := hf1b e he; omega

/-! ## The invariant through the body of `Insert` -/

theorem KeyEq_frame {m1 m2 : Nat → Nat} {b dk p q : Nat} (hf : ∀ a, a < b → m2 a = m1 a)
    (hp : p + dk ≤ b) (hq : q + dk ≤ b) : KeyEq dk m2 p q = KeyEq dk m1 p q := by
  unfold KeyEq
  rw [readBytes_frame hf hp, readBytes_frame hf hq]

theorem CPUHashmap.Valid.frame {T : CPUHashmap} {h h2 : Heap} (hV : Valid T h)
    (hlive : h2.live = h.live) (hbrk : h.brk ≤ h2.brk)
    (hf : ∀ a, a < h.brk → h2.mem a = h.mem a) : Valid T h2 where
  brk_pos := Nat.lt_of_lt_of_le hV.brk_pos hbrk
  live_lt := by
    intro b hb
    rw [hlive] at hb
    have := hV.live_lt b hb
    omega
  live_nodup := by rw [hlive]; exact hV.live_nodup
  owned := by rw [hlive]; exact hV.owned
  distinct := hV.distinct
  unique := by
    refine List.Pairwise.imp_of_mem ?_ hV.unique
    intro e1 e2 he1 he2 h12
    rw [KeyEq_frame hf (hV.key_below he1).2 (hV.key_below he2).2]
    exact h12

theorem Valid_dropped {T : CPUHashmap} {h : Heap} (hV : Valid T h) (ik iv i : Nat) :
    Valid T (heapDropped T h ik iv i) :=
  hV.frame rfl (by simp only [heapDropped]; omega) (copied_frame T h ik iv i)

theorem Valid_leaked {T : CPUHashmap} {h : Heap} (hV : Valid T h) :
    Valid T (heapLeaked T h) where
  brk_pos := by have := hV.brk_pos; simp only [heapLeaked]; omega
  live_lt := by
    intro b hb
    simp only [heapLeaked, List.mem_cons] at hb ⊢
    rcases hb with rfl | hb
    · have := hV.brk_pos
      simp only
      omega
    · have := hV.live_lt b hb
      omega
  live_nodup := by
    simp only [heapLeaked, List.map_cons, List.nodup_cons]
    refine ⟨?_, hV.live_nodup⟩
    intro hmem
    obtain ⟨b, hb, hb1⟩ := List.mem_map.mp hmem
    have := hV.live_lt b hb
    omega
  owned := by
    intro e he
    have := hV.owned e he
    simp only [heapLeaked, List.mem_cons]
    exact ⟨Or.inr this.1, Or.inr this.2⟩
  distinct := hV.distinct
  unique := hV.unique

theorem find_eq_none {m : unordered_map} {dk : Nat} {mem : Nat → Nat} {key : Nat}
    (hn : m.find dk mem key = none) : ∀ e ∈ m, KeyEq dk mem e.1 key = false := by
  intro e he
  unfold unordered_map.find at hn
  have := List.find?_eq_none.mp hn e he
  simpa using this

theorem Valid_kept {T : CPUHashmap} {h : Heap} (hV : Valid T h) (ik iv i : Nat)
    (hn : T.cpu_hashmap_impl_.find T.dsize_key_ h.mem (T.src_key ik i) = none) :
    Valid (tableKept T h) (heapKept T h ik iv i) where
  brk_pos := by have := hV.brk_pos; simp only [heapKept]; omega
  live_lt := by
    intro b hb
    simp only [heapKept, List.mem_cons] at hb ⊢
    have := hV.brk_pos
    rcases hb with rfl | rfl | hb
    · simp only; omega
    · simp only; omega
    · have := hV.live_lt b hb
      omega
  live_nodup := by
    simp only [heapKept, List.map_cons, List.nodup_cons, List.mem_cons]
    refine ⟨?_, ?_, hV.live_nodup⟩
    · rintro (hc | hmem)
      · omega
      · obtain ⟨b, hb, hb1⟩ := List.mem_map.mp hmem
        have := hV.live_lt b hb
        omega
    · intro hmem
      obtain ⟨b, hb, hb1⟩ := List.mem_map.mp hmem
      have := hV.live_lt b hb
      omega
  owned := by
    intro e he
    simp only [tableKept, heapKept, List.mem_cons] at he ⊢
    rcases he with rfl | he
    · exact ⟨Or.inr (Or.inl rfl), Or.inl rfl⟩
    · have := hV.owned e he
      exact ⟨Or.inr (Or.inr this.1), Or.inr (Or.inr this.2)⟩
  distinct := by
    have hd := hV.distinct
    simp only [tableKept, List.map_cons, List.cons_append]
    rw [List.nodup_cons]
    have hk : ∀ e ∈ T.cpu_hashmap_impl_, e.1 < h.brk ∧ e.2 < h.brk := by
      intro e he
      have h1 := hV.live_lt _ (hV.owned e he).1
      have h2 := hV.live_lt _ (hV.owned e he).2
      simp only at h1 h2
      omega
    refine ⟨?_, ?_⟩
    · simp only [List.mem_append, List.mem_map, List.mem_cons]
      rintro (⟨e, he, h1⟩ | h1 | ⟨e, he, h1⟩)
      · have := hk e he; omega
      · omega
      · have := hk e he; omega
    · rw [List.nodup_append] at hd ⊢
      refine ⟨hd.1, ?_, ?_⟩
      · rw [List.nodup_cons]
        refine ⟨?_, hd.2.1⟩
        simp only [List.mem_map]
        rintro ⟨e, he, h1⟩
        have := hk e he; omega
      · intro a ha hb
        simp only [List.mem_cons] at hb
        rcases hb with rfl | hb
        · obtain ⟨e, he, h1⟩ := List.mem_map.mp ha
          have := hk e he; omega
        · exact hd.2.2 ha hb
  unique := by
    simp only [tableKept, List.pairwise_cons]
    refine ⟨?_, ?_⟩
    · intro e he
      have h1 := find_eq_none hn e he
      simp only [heapKept]
      unfold KeyEq at h1 ⊢
      rw [copied_key, readBytes_frame (copied_frame T h ik iv i) (hV.key_below he).2]
      unfold keyAt
      simp only [decide_eq_false_iff_not] at h1 ⊢
      exact fun hc => h1 hc.symm
    · refine List.Pairwise.imp_of_mem ?_ hV.unique
      intro e1 e2 he1 he2 h12
      simp only [heapKept]
      rw [KeyEq_frame (copied_frame T h ik iv i) (hV.key_below he1).2 (hV.key_below he2).2]
      exact h12

/-! ## The loop of `Insert`, whatever its outcome -/

theorem Extends_dropped (T : CPUHashmap) (h : Heap) (ik iv i : Nat) :
    Extends T h T (heapDropped T h ik iv i) where
  brk_le := by simp only [heapDropped]; omega
  limit_eq := rfl
  frame := copied_frame T h ik iv i
  table_eq := rfl
  impl_ext := ⟨[], rfl, by simp⟩
  live_ext := ⟨[], rfl, by simp⟩
  allocated_ext := ⟨[h.brk + max T.dsize_key_ 1, h.brk], rfl, by
    intro a ha
    simp only [List.mem_cons, List.mem_singleton, List.not_mem_nil, or_false] at ha
    simp only [heapDropped]
    omega⟩
  freed_ext := ⟨[h.brk + max T.dsize_key_ 1, h.brk], rfl, by
    intro a ha
    simp only [List.mem_cons, List.mem_singleton, List.not_mem_nil, or_false] at ha
    simp only [heapDropped]
    omega⟩

theorem Extends_leaked (T : CPUHashmap) (h : Heap) : Extends T h T (heapLeaked T h) where
  brk_le := by simp only [heapLeaked]; omega
  limit_eq := rfl
  frame := fun _ _ => rfl
  table_eq := rfl
  impl_ext := ⟨[], rfl, by simp⟩
  live_ext := ⟨[(h.brk, T.dsize_key_)], rfl, by simp⟩
  allocated_ext := ⟨[h.brk], rfl, by
    intro a ha
    simp only [List.mem_singleton] at ha
    simp only [heapLeaked]
    omega⟩
  freed_ext := ⟨[], rfl, by simp⟩

theorem Extends_kept (T : CPUHashmap) (h : Heap) (ik iv i : Nat) :
    Extends T h (tableKept T h) (heapKept T h ik iv i) where
  brk_le := by simp only [heapKept]; omega
  limit_eq := rfl
  frame := copied_frame T h ik iv i
  table_eq := rfl
  impl_ext := ⟨[(h.brk, h.brk + max T.dsize_key_ 1)], rfl, by simp⟩
  live_ext := ⟨[(h.brk + max T.dsize_key_ 1, T.dsize_value_), (h.brk, T.dsize_key_)], rfl, by
    intro b hb
    simp only [List.mem_cons, List.mem_singleton, List.not_mem_nil, or_false] at hb
    rcases hb with rfl | rfl
    · simp only; omega
    · simp⟩
  allocated_ext := ⟨[h.brk + max T.dsize_key_ 1, h.brk], rfl, by
    intro a ha
    simp only [List.mem_cons, List.mem_singleton, List.not_mem_nil, or_false] at ha
    simp only [heapKept]
    omega⟩
  freed_ext := ⟨[], rfl, by simp⟩

/-- The four ways the body of `Insert` can end. -/
theorem InsertBody_cases {T : CPUHashmap} {h : Heap} (hV : Valid T h) (ik iv i : Nat) :
    (¬ (h.brk + max T.dsize_key_ 1 ≤ h.limit) ∧
      InsertBody T h ik iv i = ⟨Except.error Exception.AllocationFailure, T, h⟩) ∨
    (h.brk + max T.dsize_key_ 1 ≤ h.limit ∧ ¬ (h.brk + stride T ≤ h.limit) ∧
      InsertBody T h ik iv i
        = ⟨Except.error Exception.AllocationFailure, T, heapLeaked T h⟩) ∨
    (h.brk + stride T ≤ h.limit ∧
      T.cpu_hashmap_impl_.find T.dsize_key_ h.mem (T.src_key ik i) = none ∧
      InsertBody T h ik iv i
        = ⟨Except.ok (⟨h.brk, h.brk + max T.dsize_key_ 1⟩, 1), tableKept T h,
            heapKept T h ik iv i⟩) ∨
    (h.brk + stride T ≤ h.limit ∧
      (∃ e, T.cpu_hashmap_impl_.find T.dsize_key_ h.mem (T.src_key ik i) = some e) ∧
      InsertBody T h ik iv i
        = ⟨Except.ok (iterator_t.empty, 0), T, heapDropped T h ik iv i⟩) := by
  by_cases hr1 : h.brk + max T.dsize_key_ 1 ≤ h.limit
  · by_cases hr2 : h.brk + stride T ≤ h.limit
    · have hb := InsertBody_eq hV ik iv i hr2
      cases hc : T.cpu_hashmap_impl_.find T.dsize_key_ h.mem (T.src_key ik i) with
      | none =>
        rw [hc] at hb
        exact Or.inr (Or.inr (Or.inl ⟨hr2, rfl, hb⟩))
      | some e =>
        rw [hc] at hb
        exact Or.inr (Or.inr (Or.inr ⟨hr2, ⟨e, rfl⟩, hb⟩))
    · exact Or.inr (Or.inl ⟨hr1, hr2, InsertBody_fail_value ik iv i hr1 hr2⟩)
  · exact Or.inl ⟨hr1, InsertBody_fail_key ik iv i hr1⟩

theorem InsertLoop_cons (ik iv i : Nat) (rest : List Nat) (T : CPUHashmap) (h : Heap) :
    InsertLoop ik iv (i :: rest) T h =
      match InsertBody T h ik iv i with
      | ⟨Except.error e, T1, h1⟩ => ⟨Except.error e, T1, h1⟩
      | ⟨Except.ok (it, m), T1, h1⟩ =>
        if i = INT_MAX then ⟨Except.error Exception.SignedOverflow, T1, h1⟩
        else
          match InsertLoop ik iv rest T1 h1 with
          | ⟨Except.error e, T2, h2⟩ => ⟨Except.error e, T2, h2⟩
          | ⟨Except.ok (its, ms), T2, h2⟩ => ⟨Except.ok (it :: its, m :: ms), T2, h2⟩ := rfl

theorem InsertLoop_cons_error {ik iv i : Nat} {rest : List Nat} {T T1 : CPUHashmap}
    {h h1 : Heap} {e : Exception}
    (hb : InsertBody T h ik iv i = ⟨Except.error e, T1, h1⟩) :
    InsertLoop ik iv (i :: rest) T h = ⟨Except.error e, T1, h1⟩ := by
  rw [InsertLoop_cons, hb]

theorem InsertLoop_cons_overflow {ik iv i : Nat} {rest : List Nat} {T T1 : CPUHashmap}
    {h h1 : Heap} {r : iterator_t × Nat}
    (hb : InsertBody T h ik iv i = ⟨Except.ok r, T1, h1⟩) (hi : i = INT_MAX) :
    InsertLoop ik iv (i :: rest) T h = ⟨Except.error Exception.SignedOverflow, T1, h1⟩ := by
  rw [InsertLoop_cons, hb]
  simp only [hi, if_true]

theorem InsertLoop_cons_ok {ik iv i : Nat} {rest : List Nat} {T T1 : CPUHashmap}
    {h h1 : Heap} {r : iterator_t × Nat}
    (hb : InsertBody T h ik iv i = ⟨Except.ok r, T1, h1⟩) (hi : i ≠ INT_MAX) :
    InsertLoop ik iv (i :: rest) T h =
      match InsertLoop ik iv rest T1 h1 with
      | ⟨Except.error e, T2, h2⟩ => ⟨Except.error e, T2, h2⟩
      | ⟨Except.ok (its, ms), T2, h2⟩ => ⟨Except.ok (r.1 :: its, r.2 :: ms), T2, h2⟩ := by
  rw [InsertLoop_cons, hb]
  simp only [hi, if_false]

theorem InsertLoop_cons_state {ik iv i : Nat} (rest : List Nat) {T T1 : CPUHashmap}
    {h h1 : Heap} {r : iterator_t × Nat}
    (hb : InsertBody T h ik iv i = ⟨Except.ok r, T1, h1⟩) (hi : i ≠ INT_MAX) :
    (InsertLoop ik iv (i :: rest) T h).table = (InsertLoop ik iv rest T1 h1).table ∧
    (InsertLoop ik iv (i :: rest) T h).heap = (InsertLoop ik iv rest T1 h1).heap := by
  rw [InsertLoop_cons_ok hb hi]
  split
  · next e T2 h2 heq => rw [heq]; exact ⟨rfl, rfl⟩
  · next its ms T2 h2 heq => rw [heq]; exact ⟨rfl, rfl⟩

/-- Whatever the outcome of the loop of `Insert` (returned, allocation failure
or overflow), the state it leaves is valid and extends the state it found. -/
theorem InsertLoop_extends (ik iv : Nat) :
    ∀ (idx : List Nat) (T : CPUHashmap) (h : Heap), Valid T h →
      Valid (InsertLoop ik iv idx T h).table (InsertLoop ik iv idx T h).heap ∧
      Extends T h (InsertLoop ik iv idx T h).table (InsertLoop ik iv idx T h).heap
  | [], T, h, hV => ⟨hV, Extends.refl T h⟩
  | i :: rest, T, h, hV => by
    rcases InsertBody_cases hV ik iv i with ⟨_, hb⟩ | ⟨_, _, hb⟩ | ⟨_, hn, hb⟩ | ⟨_, _, hb⟩
    · rw [InsertLoop_cons_error hb]; exact ⟨hV, Extends.refl T h⟩
    · rw [InsertLoop_cons_error hb]; exact ⟨Valid_leaked hV, Extends_leaked T h⟩
    · have hV1 := Valid_kept hV ik iv i hn
      have hE1 := Extends_kept T h ik iv i
      by_cases hi : i = INT_MAX
      · rw [InsertLoop_cons_overflow hb hi]; exact ⟨hV1, hE1⟩
      · have ih := InsertLoop_extends ik iv rest _ _ hV1
        have hs := InsertLoop_cons_state rest hb hi
        rw [hs.1, hs.2]
        exact ⟨ih.1, hE1.trans ih.2⟩
    · have hV1 := Valid_dropped hV ik iv i
      have hE1 := Extends_dropped T h ik iv i
      by_cases hi : i = INT_MAX
      · rw [InsertLoop_cons_overflow hb hi]; exact ⟨hV1, hE1⟩
      · have ih := InsertLoop_extends ik iv rest _ _ hV1
        have hs := InsertLoop_cons_state rest hb hi
        rw [hs.1, hs.2]
        exact ⟨ih.1, hE1.trans ih.2⟩

/-! ## Runs of the loop of `Insert` that return -/

theorem InsertLoop_cons_returned {ik iv i : Nat} {rest : List Nat} {T T1 T2 : CPUHashmap}
    {h h1 h2 : Heap} {r : iterator_t × Nat} {its : List iterator_t} {ms : List Nat}
    (hb : InsertBody T h ik iv i = ⟨Except.ok r, T1, h1⟩) (hi : i ≠ INT_MAX)
    (hl : InsertLoop ik iv rest T1 h1 = ⟨Except.ok (its, ms), T2, h2⟩) :
    InsertLoop ik iv (i :: rest) T h = ⟨Except.ok (r.1 :: its, r.2 :: ms), T2, h2⟩ := by
  rw [InsertLoop_cons_ok hb hi, hl]

/-- With room in the heap for every element and no index at `INT_MAX`, the
loop of `Insert` returns, and what it returns is a run of `InsertRun`. -/
theorem InsertLoop_returns (ik iv : Nat) :
    ∀ (idx : List Nat) (T : CPUHashmap) (h : Heap), Valid T h →
      (∀ i ∈ idx, i ≠ INT_MAX) → h.brk + idx.length * stride T ≤ h.limit →
      ∃ its ms T2 h2, InsertLoop ik iv idx T h = ⟨Except.ok (its, ms), T2, h2⟩ ∧
        InsertRun ik iv idx T h its ms T2 h2
  | [], T, h, _, _, _ => ⟨[], [], T, h, rfl, InsertRun.done T h⟩
  | i :: rest, T, h, hV, hidx, hroom => by
    have hi : i ≠ INT_MAX := hidx i (List.mem_cons_self i rest)
    have hrest : ∀ j ∈ rest, j ≠ INT_MAX := fun j hj => hidx j (List.mem_cons_of_mem i hj)
    simp only [List.length_cons, Nat.add_mul, Nat.one_mul] at hroom
    have hr : h.brk + stride T ≤ h.limit := by omega
    rcases InsertBody_cases hV ik iv i with ⟨hc, _⟩ | ⟨_, hc, _⟩ | ⟨_, hn, hb⟩ | ⟨_, ⟨e, he⟩, hb⟩
    · exact absurd (by unfold stride at hr; omega) hc
    · exact absurd hr hc
    · have hV1 := Valid_kept hV ik iv i hn
      have hroom1 : (heapKept T h ik iv i).brk + rest.length * stride (tableKept T h)
          ≤ (heapKept T h ik iv i).limit := by
        simp only [heapKept, tableKept, stride] at hroom ⊢
        omega
      obtain ⟨its, ms, T2, h2, hl, hrun⟩ := InsertLoop_returns ik iv rest _ _ hV1 hrest hroom1
      exact ⟨_, _, T2, h2, InsertLoop_cons_returned hb hi hl, InsertRun.kept hn hrun⟩
    · have hV1 := Valid_dropped hV ik iv i
      have hroom1 : (heapDropped T h ik iv i).brk + rest.length * stride T
          ≤ (heapDropped T h ik iv i).limit := by
        simp only [heapDropped, stride] at hroom ⊢
        omega
      obtain ⟨its, ms, T2, h2, hl, hrun⟩ := InsertLoop_returns ik iv rest _ _ hV1 hrest hroom1
      exact ⟨_, _, T2, h2, InsertLoop_cons_returned hb hi hl, InsertRun.dropped e he hrun⟩

theorem InsertRun.length {ik iv : Nat} {idx : List Nat} {T T2 : CPUHashmap} {h h2 : Heap}
    {its : List iterator_t} {ms : List Nat} (hrun : InsertRun ik iv idx T h its ms T2 h2) :
    its.length = idx.length ∧ ms.length = idx.length := by
  induction hrun with
  | done => exact ⟨rfl, rfl⟩
  | kept _ _ ih => simp only [List.length_cons, ih.1, ih.2, and_self]
  | dropped _ _ _ ih => simp only [List.length_cons, ih.1, ih.2, and_self]

theorem InsertRun.valid_extends {ik iv : Nat} {idx : List Nat} {T T2 : CPUHashmap} {h h2 : Heap}
    {its : List iterator_t} {ms : List Nat} (hrun : InsertRun ik iv idx T h its ms T2 h2)
    (hV : Valid T h) : Valid T2 h2 ∧ Extends T h T2 h2 := by
  induction hrun with
  | done => exact ⟨hV, Extends.refl _ _⟩
  | kept hfind _ ih =>
    have := ih (Valid_kept hV _ _ _ hfind)
    exact ⟨this.1, (Extends_kept _ _ _ _ _).trans this.2⟩
  | dropped _ _ _ ih =>
    have := ih (Valid_dropped hV _ _ _)
    exact ⟨this.1, (Extends_dropped _ _ _ _ _).trans this.2⟩

/-! ## Freshness of an element along the loop -/

theorem BatchBelow_kept {T : CPUHashmap} {h : Heap} {ik iv i : Nat} {rest : List Nat}
    (i0 : Nat) (hB : BatchBelow T h ik iv (i :: rest)) :
    BatchBelow (tableKept T h) (heapKept T h ik iv i0) ik iv rest := by
  intro j hj
  have := hB j (List.mem_cons_of_mem i hj)
  simp only [tableKept, heapKept, src_key, src_value] at this ⊢
  omega

theorem BatchBelow_dropped {T : CPUHashmap} {h : Heap} {ik iv i : Nat} {rest : List Nat}
    (i0 : Nat) (hB : BatchBelow T h ik iv (i :: rest)) :
    BatchBelow T (heapDropped T h ik iv i0) ik iv rest := by
  intro j hj
  have := hB j (List.mem_cons_of_mem i hj)
  simp only [heapDropped] at this ⊢
  omega

theorem keyAt_kept (T : CPUHashmap) (h : Heap) (ik iv i0 i : Nat)
    (hi : T.src_key ik i + T.dsize_key_ ≤ h.brk) :
    keyAt (tableKept T h) (heapKept T h ik iv i0) ik i = keyAt T h ik i :=
  readBytes_frame (copied_frame T h ik iv i0) hi

theorem valueAt_kept (T : CPUHashmap) (h : Heap) (ik iv i0 i : Nat)
    (hi : T.src_value iv i + T.dsize_value_ ≤ h.brk) :
    valueAt (tableKept T h) (heapKept T h ik iv i0) iv i = valueAt T h iv i :=
  readBytes_frame (copied_frame T h ik iv i0) hi

theorem keyAt_dropped (T : CPUHashmap) (h : Heap) (ik iv i0 i : Nat)
    (hi : T.src_key ik i + T.dsize_key_ ≤ h.brk) :
    keyAt T (heapDropped T h ik iv i0) ik i = keyAt T h ik i :=
  readBytes_frame (copied_frame T h ik iv i0) hi

theorem valueAt_dropped (T : CPUHashmap) (h : Heap) (ik iv i0 i : Nat)
    (hi : T.src_value iv i + T.dsize_value_ ≤ h.brk) :
    valueAt T (heapDropped T h ik iv i0) iv i = valueAt T h iv i :=
  readBytes_frame (copied_frame T h ik iv i0) hi

theorem KeyEq_eq_false {dk : Nat} {mem : Nat → Nat} {p q : Nat} :
    KeyEq dk mem p q = false ↔ readBytes mem p dk ≠ readBytes mem q dk := by
  unfold KeyEq
  simp only [decide_eq_false_iff_not]

theorem KeyEq_eq_true {dk : Nat} {mem : Nat → Nat} {p q : Nat} :
    KeyEq dk mem p q = true ↔ readBytes mem p dk = readBytes mem q dk := by
  unfold KeyEq
  simp only [decide_eq_true_eq]

theorem find_eq_some {m : unordered_map} {dk : Nat} {mem : Nat → Nat} {key : Nat}
    {e : Nat × Nat} (hs : m.find dk mem key = some e) :
    e ∈ m ∧ readBytes mem e.1 dk = readBytes mem key dk := by
  unfold unordered_map.find at hs
  have h1 : KeyEq dk mem e.1 key = true :=
    @List.find?_some _ (fun e => KeyEq dk mem e.1 key) e m hs
  exact ⟨List.mem_of_find?_eq_some hs, KeyEq_eq_true.mp h1⟩

theorem Fresh_kept_iff {T : CPUHashmap} {h : Heap} (hV : Valid T h) (ik iv i0 i : Nat)
    (pre : List Nat) (hi : T.src_key ik i + T.dsize_key_ ≤ h.brk)
    (hpre : ∀ j ∈ pre, T.src_key ik j + T.dsize_key_ ≤ h.brk) :
    Fresh (tableKept T h) (heapKept T h ik iv i0) ik pre i ↔ Fresh T h ik (i0 :: pre) i := by
  have hf := copied_frame T h ik iv i0
  have hsrc : readBytes (copied T h ik iv i0) (T.src_key ik i) T.dsize_key_
      = keyAt T h ik i := readBytes_frame hf hi
  have hold : ∀ e ∈ T.cpu_hashmap_impl_,
      KeyEq T.dsize_key_ (copied T h ik iv i0) e.1 (T.src_key ik i)
        = KeyEq T.dsize_key_ h.mem e.1 (T.src_key ik i) :=
    fun e he => KeyEq_frame hf (hV.key_below he).2 hi
  have hprev : ∀ j ∈ pre,
      KeyEq T.dsize_key_ (copied T h ik iv i0) (T.src_key ik j) (T.src_key ik i)
        = KeyEq T.dsize_key_ h.mem (T.src_key ik j) (T.src_key ik i) :=
    fun j hj => KeyEq_frame hf (hpre j hj) hi
  have hnew : KeyEq T.dsize_key_ (copied T h ik iv i0) h.brk (T.src_key ik i)
      = KeyEq T.dsize_key_ h.mem (T.src_key ik i0) (T.src_key ik i) := by
    unfold KeyEq
    rw [copied_key, hsrc]
    rfl
  constructor
  · rintro ⟨h1, h2⟩
    refine ⟨fun e he => ?_, fun j hj => ?_⟩
    · rw [← hold e he]
      exact h1 e (List.mem_cons_of_mem _ he)
    · rcases List.mem_cons.mp hj with rfl | hj
      · rw [← hnew]
        exact h1 _ (List.mem_cons_self _ _)
      · rw [← hprev j hj]
        exact h2 j hj
  · rintro ⟨h1, h2⟩
    refine ⟨fun e he => ?_, fun j hj => ?_⟩
    · rcases List.mem_cons.mp he with rfl | he
      · exact hnew.trans (h2 i0 (List.mem_cons_self _ _))
      · exact (hold e he).trans (h1 e he)
    · exact (hprev j hj).trans (h2 j (List.mem_cons_of_mem _ hj))

theorem Fresh_dropped_iff {T : CPUHashmap} {h : Heap} (hV : Valid T h) (ik iv i0 i : Nat)
    (pre : List Nat) {e0 : Nat × Nat}
    (hfind : T.cpu_hashmap_impl_.find T.dsize_key_ h.mem (T.src_key ik i0) = some e0)
    (hi : T.src_key ik i + T.dsize_key_ ≤ h.brk)
    (hpre : ∀ j ∈ pre, T.src_key ik j + T.dsize_key_ ≤ h.brk) :
    Fresh T (heapDropped T h ik iv i0) ik pre i ↔ Fresh T h ik (i0 :: pre) i := by
  have hf := copied_frame T h ik iv i0
  have hold : ∀ e ∈ T.cpu_hashmap_impl_,
      KeyEq T.dsize_key_ (copied T h ik iv i0) e.1 (T.src_key ik i)
        = KeyEq T.dsize_key_ h.mem e.1 (T.src_key ik i) :=
    fun e he => KeyEq_frame hf (hV.key_below he).2 hi
  have hprev : ∀ j ∈ pre,
      KeyEq T.dsize_key_ (copied T h ik iv i0) (T.src_key ik j) (T.src_key ik i)
        = KeyEq T.dsize_key_ h.mem (T.src_key ik j) (T.src_key ik i) :=
    fun j hj => KeyEq_frame hf (hpre j hj) hi
  obtain ⟨he0, hk0⟩ := find_eq_some hfind
  constructor
  · rintro ⟨h1, h2⟩
    refine ⟨fun e he => ?_, fun j hj => ?_⟩
    · rw [← hold e he]
      exact h1 e he
    · rcases List.mem_cons.mp hj with rfl | hj
      · have h3 := (hold e0 he0).symm.trans (h1 e0 he0)
        rw [KeyEq_eq_false] at h3 ⊢
        rw [← hk0]
        exact h3
      · rw [← hprev j hj]
        exact h2 j hj
  · rintro ⟨h1, h2⟩
    exact ⟨fun e he => (hold e he).trans (h1 e he),
      fun j hj => (hprev j hj).trans (h2 j (List.mem_cons_of_mem _ hj))⟩

/-! ## What the loop of `Insert` writes at each index -/

theorem CPUHashmap.Valid.entry_lt {T : CPUHashmap} {h : Heap} (hV : Valid T h) {e : Nat × Nat}
    (he : e ∈ T.cpu_hashmap_impl_) : e.1 < h.brk ∧ e.2 < h.brk := by
  have h1 := hV.live_lt _ (hV.owned e he).1
  have h2 := hV.live_lt _ (hV.owned e he).2
  simp only at h1 h2
  omega

theorem InsertRun.spec {ik iv : Nat} {idx : List Nat} {T T2 : CPUHashmap} {h h2 : Heap}
    {its : List iterator_t} {ms : List Nat} (hrun : InsertRun ik iv idx T h its ms T2 h2)
    (hV : Valid T h) (hB : BatchBelow T h ik iv idx) :
    ∀ t i, idx[t]? = some i → SlotSpec T h T2 h2 ik iv (idx.take t) i its[t]? ms[t]? := by
  induction hrun with
  | done => intro t i hti; simp at hti
  | @kept i0 rest T h its ms T2 h2 hfind hrest ih =>
    have hV1 := Valid_kept hV ik iv i0 hfind
    have hB1 := BatchBelow_kept i0 hB
    obtain ⟨hV2, hE⟩ := hrest.valid_extends hV1
    intro t i hti
    cases t with
    | zero =>
      simp only [List.getElem?_cons_zero, Option.some.injEq] at hti
      subst hti
      have hfresh : Fresh T h ik [] i0 := ⟨find_eq_none hfind, by simp⟩
      simp only [SlotSpec, List.take_zero, List.getElem?_cons_zero, hfresh, not_true_eq_false,
        false_implies, and_true, true_implies, true_and]
      obtain ⟨news, hnews, _⟩ := hE.impl_ext
      refine ⟨_, rfl, ?_, ?_, Nat.le_refl _, Nat.le_add_right _ _, ?_, ?_⟩
      · rw [hnews]
        exact List.mem_append_right _ (List.mem_cons_self _ _)
      · intro hc
        have := (hV.entry_lt hc).1
        simp only at this
        omega
      · rw [readBytes_frame hE.frame (by simp only [heapKept]; omega)]
        exact copied_key T h ik iv i0
      · rw [readBytes_frame hE.frame (by simp only [heapKept]; omega)]
        exact copied_value T h ik iv i0 (hB i0 (List.mem_cons_self _ _)).2
    | succ t =>
      simp only [List.getElem?_cons_succ] at hti
      have hmem : i ∈ rest := List.getElem?_mem hti
      have hi := hB i (List.mem_cons_of_mem _ hmem)
      have hpre : ∀ j ∈ rest.take t, T.src_key ik j + T.dsize_key_ ≤ h.brk :=
        fun j hj => (hB j (List.mem_cons_of_mem _ (List.mem_of_mem_take hj))).1
      have hs := ih hV1 hB1 t i hti
      simp only [SlotSpec, List.take_succ_cons, List.getElem?_cons_succ] at hs ⊢
      rw [Fresh_kept_iff hV ik iv i0 i _ hi.1 hpre, keyAt_kept T h ik iv i0 i hi.1,
        valueAt_kept T h ik iv i0 i hi.2] at hs
      refine ⟨fun hf => ?_, hs.2⟩
      obtain ⟨hm, x, hx, hx1, hx0, hx2, hx3, hx4, hx5⟩ := hs.1 hf
      simp only [heapKept, tableKept] at hx0 hx2 hx3 hx4 hx5
      exact ⟨hm, x, hx, hx1, fun hc => hx0 (List.mem_cons_of_mem _ hc), by omega, by omega,
        hx4, hx5⟩
  | @dropped i0 rest T h its ms T2 h2 e0 hfind hrest ih =>
    have hV1 := Valid_dropped hV ik iv i0
    have hB1 := BatchBelow_dropped i0 hB
    intro t i hti
    cases t with
    | zero =>
      simp only [List.getElem?_cons_zero, Option.some.injEq] at hti
      subst hti
      obtain ⟨he0, hk0⟩ := find_eq_some hfind
      have hnot : ¬ Fresh T h ik [] i0 := by
        rintro ⟨h1, _⟩
        have := h1 e0 he0
        rw [KeyEq_eq_false] at this
        exact this hk0
      simp only [SlotSpec, List.take_zero, List.getElem?_cons_zero, hnot, not_false_eq_true,
        false_implies, true_implies, true_and, and_self]
    | succ t =>
      simp only [List.getElem?_cons_succ] at hti
      have hmem : i ∈ rest := List.getElem?_mem hti
      have hi := hB i (List.mem_cons_of_mem _ hmem)
      have hpre : ∀ j ∈ rest.take t, T.src_key ik j + T.dsize_key_ ≤ h.brk :=
        fun j hj => (hB j (List.mem_cons_of_mem _ (List.mem_of_mem_take hj))).1
      have hs := ih hV1 hB1 t i hti
      simp only [SlotSpec, List.take_succ_cons, List.getElem?_cons_succ] at hs ⊢
      rw [Fresh_dropped_iff hV ik iv i0 i _ hfind hi.1 hpre, keyAt_dropped T h ik iv i0 i hi.1,
        valueAt_dropped T h ik iv i0 i hi.2] at hs
      refine ⟨fun hf => ?_, hs.2⟩
      obtain ⟨hm, x, hx, hx1, hx0, hx2, hx3, hx4, hx5⟩ := hs.1 hf
      simp only [heapDropped] at hx2 hx3
      exact ⟨hm, x, hx, hx1, hx0, by omega, by omega, hx4, hx5⟩

/-! ## Search and Remove leave the table and its buffers alone -/

theorem SearchLoop_state (input_keys : Nat) (idx : List Nat) (T : CPUHashmap) (h : Heap) :
    (SearchLoop input_keys idx T h).table = T ∧ (SearchLoop input_keys idx T h).heap = h := by
  induction idx with
  | nil => exact ⟨rfl, rfl⟩
  | cons i rest ih =>
    unfold SearchLoop
    by_cases hi : i = INT_MAX
    · simp [hi]
    · simp only [hi, if_false]
      split
      · next e T2 h2 heq => rw [heq] at ih; exact ih
      · next its ms T2 h2 heq => rw [heq] at ih; exact ih

/-- C7 (counterexample): `Search` allocates memory. In the scenario of the
spec, after `Insert` of the keys `[1, 2, 1]`, the call `Search([2])` hits and
obtains two blocks from `std::malloc`, of 16 bytes (one `iterator_t`) and of 1
byte (one mask): its output arrays, which it returns without freeing them. -/
theorem Search_allocates_output_arrays :
    (scenarioAfter.table.Search scenarioAfter.heap 48 1).result
      = Except.ok ([⟨72, 76⟩], [1]) ∧
    (scenarioAfter.table.Search scenarioAfter.heap 48 1).malloced = [16, 1] ∧
    (scenarioAfter.table.Search scenarioAfter.heap 48 1).malloced ≠ [] :=
  ⟨by decide, by decide, by decide⟩

/-- C7 (amended): `Search` never mutates the table or the buffers of its
entries: whatever the table, the heap and the key batch, the table (entry
store included) and the heap of the allocator (memory bytes, hence the bytes
of every stored key and value, live buffers, allocation and release logs)
after the call are the ones before it. The only memory `Search` allocates is
its two output arrays: `input_key_size * sizeof(iterator_t)` bytes and
`input_key_size * sizeof(uint8_t)` bytes from `std::malloc`. -/
theorem Search_no_mutation (T : CPUHashmap) (h : Heap) (input_keys input_key_size : Nat) :
    (T.Search h input_keys input_key_size).table = T ∧
    (T.Search h input_keys input_key_size).heap = h ∧
    (T.Search h input_keys input_key_size).malloced
      = [input_key_size * sizeof_iterator_t, input_key_size * sizeof_uint8_t] :=
  ⟨(SearchLoop_state input_keys (List.range input_key_size) T h).1,
    (SearchLoop_state input_keys (List.range input_key_size) T h).2, rfl⟩

/-- C8: `Remove` surfaces the error of the error sink for every table, heap
and input: the result is never a normal mask result, and the table and the
heap are left unchanged. -/
theorem Remove_unsupported (T : CPUHashmap) (h : Heap) (input_keys input_key_size : Nat) :
    (T.Remove h input_keys input_key_size).result
      = Except.error (Exception.LogError "Unimplemented method") ∧
    (∀ masks, (T.Remove h input_keys input_key_size).result ≠ Except.ok masks) ∧
    (T.Remove h input_keys input_key_size).table = T ∧
    (T.Remove h input_keys input_key_size).heap = h := by
  refine ⟨rfl, ?_, rfl, rfl⟩
  intro masks hm
  cases hm

/-! ## C1: masks and handles of `Insert` -/

theorem scenario_valid : Valid scenarioTable scenarioHeap := by
  refine ⟨?_, ?_, ?_, ?_, ?_, ?_⟩ <;> decide

theorem scenario_batch : BatchBelow scenarioTable scenarioHeap 16 32 (List.range 3) := by
  unfold BatchBelow
  decide

theorem range_ne_INT_MAX {n : Nat} (hn : n ≤ INT_MAX) : ∀ i ∈ List.range n, i ≠ INT_MAX := by
  intro i hi
  have := List.mem_range.mp hi
  omega

/-- A loop of `Insert` that returned is a run of `InsertRun`. -/
theorem InsertLoop_ok_run (ik iv : Nat) :
    ∀ (idx : List Nat) (T : CPUHashmap) (h : Heap) (its : List iterator_t) (ms : List Nat)
      (T2 : CPUHashmap) (h2 : Heap), Valid T h →
      InsertLoop ik iv idx T h = ⟨Except.ok (its, ms), T2, h2⟩ →
      InsertRun ik iv idx T h its ms T2 h2
  | [], T, h, its, ms, T2, h2, _, hl => by
    simp only [InsertLoop, Run.mk.injEq, Except.ok.injEq, Prod.mk.injEq] at hl
    obtain ⟨⟨rfl, rfl⟩, rfl, rfl⟩ := hl
    exact InsertRun.done T h
  | i :: rest, T, h, its, ms, T2, h2, hV, hl => by
    rcases InsertBody_cases hV ik iv i with ⟨_, hb⟩ | ⟨_, _, hb⟩ | ⟨_, hn, hb⟩ | ⟨_, ⟨e, he⟩, hb⟩
    · rw [InsertLoop_cons_error hb] at hl
      simp at hl
    · rw [InsertLoop_cons_error hb] at hl
      simp at hl
    · by_cases hi : i = INT_MAX
      · rw [InsertLoop_cons_overflow hb hi] at hl
        simp at hl
      · rw [InsertLoop_cons_ok hb hi] at hl
        rcases hrest : InsertLoop ik iv rest (tableKept T h) (heapKept T h ik iv i)
          with ⟨res, T3, h3⟩
        rw [hrest] at hl
        cases res with
        | error e => simp at hl
        | ok r =>
          obtain ⟨its1, ms1⟩ := r
          simp only [Run.mk.injEq, Except.ok.injEq, Prod.mk.injEq] at hl
          obtain ⟨⟨rfl, rfl⟩, rfl, rfl⟩ := hl
          exact InsertRun.kept hn
            (InsertLoop_ok_run ik iv rest _ _ _ _ _ _ (Valid_kept hV ik iv i hn) hrest)
    · by_cases hi : i = INT_MAX
      · rw [InsertLoop_cons_overflow hb hi] at hl
        simp at hl
      · rw [InsertLoop_cons_ok hb hi] at hl
        rcases hrest : InsertLoop ik iv rest T (heapDropped T h ik iv i) with ⟨res, T3, h3⟩
        rw [hrest] at hl
        cases res with
        | error e => simp at hl
        | ok r =>
          obtain ⟨its1, ms1⟩ := r
          simp only [Run.mk.injEq, Except.ok.injEq, Prod.mk.injEq] at hl
          obtain ⟨⟨rfl, rfl⟩, rfl, rfl⟩ := hl
          exact InsertRun.dropped e he
            (InsertLoop_ok_run ik iv rest _ _ _ _ _ _ (Valid_dropped hV ik iv i) hrest)

theorem Extends.dsize_key {T T2 : CPUHashmap} {h h2 : Heap} (hE : Extends T h T2 h2) :
    T2.dsize_key_ = T.dsize_key_ := by
  rw [hE.table_eq]

theorem Extends.dsize_value {T T2 : CPUHashmap} {h h2 : Heap} (hE : Extends T h T2 h2) :
    T2.dsize_value_ = T.dsize_value_ := by
  rw [hE.table_eq]

theorem Extends.kv_pairs {T T2 : CPUHashmap} {h h2 : Heap} (hE : Extends T h T2 h2) :
    T2.kv_pairs_ = T.kv_pairs_ := by
  rw [hE.table_eq]

/-- In a valid table two stored pairs whose keys hold the same bytes are the
same pair. -/
theorem CPUHashmap.Valid.entry_unique {T : CPUHashmap} {h : Heap} (hV : Valid T h)
    {e1 e2 : Nat × Nat} (h1 : e1 ∈ T.cpu_hashmap_impl_) (h2 : e2 ∈ T.cpu_hashmap_impl_)
    (hk : readBytes h.mem e1.1 T.dsize_key_ = readBytes h.mem e2.1 T.dsize_key_) :
    e1 = e2 := by
  by_contra hne
  have hsymm : Symmetric (fun a b : Nat × Nat => KeyEq T.dsize_key_ h.mem a.1 b.1 = false) := by
    intro a b hab
    rw [KeyEq_eq_false] at hab ⊢
    exact fun hc => hab hc.symm
  have := hV.unique.forall hsymm h1 h2 hne
  rw [KeyEq_eq_false] at this
  exact this hk

theorem scenario_insert :
    scenarioTable.Insert scenarioHeap 16 32 3
      = ⟨Except.ok ([⟨64, 68⟩, ⟨72, 76⟩, iterator_t.empty], [1, 1, 0]),
          scenarioAfter.table, scenarioAfter.heap⟩ := rfl

/-- The scenario of the spec: `Search([2])` gives mask `1` and a handle whose
value bytes decode to `20`; `Search([3])` gives mask `0` and the empty handle. -/
theorem scenario_search :
    (scenarioAfter.table.Search scenarioAfter.heap 48 2).result
      = Except.ok ([⟨72, 76⟩, iterator_t.empty], [1, 0]) ∧
    readBytes scenarioAfter.heap.mem 76 4 = le32 20 := by
  decide

/-! ## Reachable states -/

theorem CPUHashmap.Valid.write {T : CPUHashmap} {h : Heap} (hV : Valid T h) (mem2 : Nat → Nat)
    (hown : ∀ e ∈ T.cpu_hashmap_impl_,
      (∀ j, j < T.dsize_key_ → mem2 (e.1 + j) = h.mem (e.1 + j)) ∧
      (∀ j, j < T.dsize_value_ → mem2 (e.2 + j) = h.mem (e.2 + j))) :
    Valid T { h with mem := mem2 } where
  brk_pos := hV.brk_pos
  live_lt := hV.live_lt
  live_nodup := hV.live_nodup
  owned := hV.owned
  distinct := hV.distinct
  unique := by
    refine List.Pairwise.imp_of_mem ?_ hV.unique
    intro e1 e2 he1 he2 h12
    unfold KeyEq at h12 ⊢
    rw [readBytes_congr (hown e1 he1).1, readBytes_congr (hown e2 he2).1]
    exact h12

/-- Every stored key of the table the loop of `Insert` leaves (whatever the
outcome) was stored before or holds the key bytes of a record of the batch. -/
theorem InsertLoop_keys (ik iv : Nat) :
    ∀ (idx : List Nat) (T : CPUHashmap) (h : Heap), Valid T h → BatchBelow T h ik iv idx →
      ∀ e ∈ (InsertLoop ik iv idx T h).table.cpu_hashmap_impl_,
        e ∈ T.cpu_hashmap_impl_ ∨
        ∃ i ∈ idx, readBytes (InsertLoop ik iv idx T h).heap.mem e.1 T.dsize_key_
          = keyAt T h ik i
  | [], T, h, _, _ => fun e he => Or.inl he
  | i :: rest, T, h, hV, hB => by
    intro e
    rcases InsertBody_cases hV ik iv i with ⟨_, hb⟩ | ⟨_, _, hb⟩ | ⟨_, hn, hb⟩ | ⟨_, _, hb⟩
    · rw [InsertLoop_cons_error hb]; exact fun he => Or.inl he
    · rw [InsertLoop_cons_error hb]; exact fun he => Or.inl he
    · by_cases hi : i = INT_MAX
      · rw [InsertLoop_cons_overflow hb hi]
        intro he
        simp only [tableKept, List.mem_cons] at he
        rcases he with rfl | he
        · exact Or.inr ⟨i, List.mem_cons_self _ _, copied_key T h ik iv i⟩
        · exact Or.inl he
      · have hV1 := Valid_kept hV ik iv i hn
        have hs := InsertLoop_cons_state rest hb hi
        rw [hs.1, hs.2]
        intro he
        have hE := (InsertLoop_extends ik iv rest _ _ hV1).2
        rcases InsertLoop_keys ik iv rest _ _ hV1 (BatchBelow_kept i hB) e he with h1 | h1
        · simp only [tableKept, List.mem_cons] at h1
          rcases h1 with rfl | h1
          · refine Or.inr ⟨i, List.mem_cons_self _ _, ?_⟩
            rw [readBytes_frame hE.frame (by simp only [heapKept]; omega)]
            exact copied_key T h ik iv i
          · exact Or.inl h1
        · obtain ⟨j, hj, hk⟩ := h1
          refine Or.inr ⟨j, List.mem_cons_of_mem _ hj, ?_⟩
          rw [keyAt_kept T h ik iv i j (hB j (List.mem_cons_of_mem _ hj)).1] at hk
          exact hk
    · by_cases hi : i = INT_MAX
      · rw [InsertLoop_cons_overflow hb hi]; exact fun he => Or.inl he
      · have hV1 := Valid_dropped hV ik iv i
        have hs := InsertLoop_cons_state rest hb hi
        rw [hs.1, hs.2]
        intro he
        rcases InsertLoop_keys ik iv rest _ _ hV1 (BatchBelow_dropped i hB) e he with h1 | h1
        · exact Or.inl h1
        · obtain ⟨j, hj, hk⟩ := h1
          refine Or.inr ⟨j, List.mem_cons_of_mem _ hj, ?_⟩
          rw [keyAt_dropped T h ik iv i j (hB j (List.mem_cons_of_mem _ hj)).1] at hk
          exact hk

/-- What holds in every reachable state: the invariant `Valid`, every stored
key holds the key bytes of a record of an earlier `Insert` batch, and
`kv_pairs_` is empty. -/
theorem Reachable.inv {T : CPUHashmap} {h : Heap} {hist : List (List Nat)}
    (hR : Reachable T h hist) :
    Valid T h ∧ (∀ e ∈ T.cpu_hashmap_impl_, readBytes h.mem e.1 T.dsize_key_ ∈ hist) ∧
      T.kv_pairs_ = [] := by
  induction hR with
  | create max_keys dsize_key dsize_value device h hh =>
    exact ⟨hh, by simp [CPUHashmap.ctor], rfl⟩
  | @insert T h hist ik iv n _ _ hB ih =>
    obtain ⟨hV, hk, hp⟩ := ih
    obtain ⟨hV2, hE⟩ := InsertLoop_extends ik iv (List.range n) T h hV
    refine ⟨hV2, ?_, by rw [CPUHashmap.Insert, hE.kv_pairs, hp]⟩
    intro e he
    rw [CPUHashmap.Insert] at he ⊢
    rw [hE.dsize_key]
    rcases InsertLoop_keys ik iv (List.range n) T h hV hB e he with h1 | ⟨i, hi, h1⟩
    · rw [readBytes_frame hE.frame (hV.key_below h1).2]
      exact List.mem_append_left _ (hk e h1)
    · rw [h1]
      exact List.mem_append_right _ (List.mem_map.mpr ⟨i, hi, rfl⟩)
  | @search T h hist ik n _ ih =>
    have hs := SearchLoop_state ik (List.range n) T h
    rw [CPUHashmap.Search, hs.1, hs.2]
    exact ih
  | remove _ _ _ ih => exact ih
  | write mem2 _ hown ih =>
    obtain ⟨hV, hk, hp⟩ := ih
    refine ⟨hV.write mem2 hown, ?_, hp⟩
    intro e he
    rw [readBytes_congr (hown e he).1]
    exact hk e he

/-! ## C3: miss contract of `Search` -/

/-- Without an index at `INT_MAX` the loop of `Search` returns, for each index,
what its body computes, and leaves the state as it found it. -/
theorem SearchLoop_eq (ik : Nat) (T : CPUHashmap) (h : Heap) :
    ∀ (idx : List Nat), (∀ i ∈ idx, i ≠ INT_MAX) →
      SearchLoop ik idx T h
        = ⟨Except.ok (idx.map (fun i => (SearchBody T h ik i).1),
            idx.map (fun i => (SearchBody T h ik i).2)), T, h⟩
  | [], _ => rfl
  | i :: rest, hidx => by
    have hi : i ≠ INT_MAX := hidx i (List.mem_cons_self _ _)
    have ih := SearchLoop_eq ik T h rest (fun j hj => hidx j (List.mem_cons_of_mem _ hj))
    simp only [SearchLoop, hi, if_false, ih, List.map_cons]

theorem Search_eq (T : CPUHashmap) (h : Heap) (ik n : Nat) (hn : n ≤ INT_MAX) :
    (T.Search h ik n).toRun
      = ⟨Except.ok ((List.range n).map (fun i => (SearchBody T h ik i).1),
          (List.range n).map (fun i => (SearchBody T h ik i).2)), T, h⟩ :=
  SearchLoop_eq ik T h (List.range n) (range_ne_INT_MAX hn)

theorem scenario_reachable :
    Reachable scenarioAfter.table scenarioAfter.heap
      ([] ++ (List.range 3).map (keyAt scenarioTable scenarioHeap 16)) :=
  Reachable.insert 16 32 3 (Reachable.create 16 4 4 0 scenarioHeap scenario_valid)
    (by decide) scenario_batch

theorem perm_push_two {α : Type} (a b : α) (l1 l2 : List α) :
    (l1 ++ a :: b :: l2).Perm (b :: a :: (l1 ++ l2)) := by
  have h1 : (l1 ++ a :: b :: l2).Perm (a :: (l1 ++ b :: l2)) := List.perm_middle
  have h2 : (l1 ++ b :: l2).Perm (b :: (l1 ++ l2)) := List.perm_middle
  exact (h1.trans (h2.cons a)).trans (List.Perm.swap b a _)

/-- The allocator along a run: the addresses `A` allocated and `F` freed during
the run, and the live buffers after it. -/
theorem InsertRun.logs {ik iv : Nat} {idx : List Nat} {T T2 : CPUHashmap} {h h2 : Heap}
    {its : List iterator_t} {ms : List Nat} (hrun : InsertRun ik iv idx T h its ms T2 h2) :
    ∃ A F, h2.allocated = A ++ h.allocated ∧ h2.freed = F ++ h.freed ∧
      (∀ a ∈ A, h.brk ≤ a) ∧ A.Nodup ∧ A.length = 2 * idx.length ∧
      F.length + 2 * (retained its ms).length = 2 * idx.length ∧
      (retained its ms).length = ms.count 1 ∧
      A.Perm (F ++ addressesOf (retained its ms)) ∧
      h2.live.Perm (buffersOf T (retained its ms) ++ h.live) := by
  induction hrun with
  | done T h =>
    exact ⟨[], [], rfl, rfl, by simp, List.nodup_nil, rfl, rfl, rfl, List.Perm.refl _,
      List.Perm.refl _⟩
  | @kept i0 rest T h its ms T2 h2 hfind hrest ih =>
    obtain ⟨A, F, hA, hF, hAb, hAn, hAl, hFl, hk, hAp, hL⟩ := ih
    refine ⟨A ++ [h.brk + max T.dsize_key_ 1, h.brk], F, ?_, hF, ?_, ?_, ?_, ?_, ?_, ?_, ?_⟩
    · rw [hA]; simp [heapKept]
    · intro a ha
      rcases List.mem_append.mp ha with ha | ha
      · have := hAb a ha
        simp only [heapKept] at this
        omega
      · simp only [List.mem_cons, List.mem_singleton, List.not_mem_nil, or_false] at ha
        omega
    · rw [List.nodup_append]
      refine ⟨hAn, by simp, ?_⟩
      intro a ha hb
      have := hAb a ha
      simp only [heapKept] at this
      simp only [List.mem_cons, List.mem_singleton, List.not_mem_nil, or_false] at hb
      omega
    · simp only [List.length_append, List.length_cons, List.length_nil, hAl]
      omega
    · simp only [retained, if_true, List.length_cons]
      omega
    · simp only [retained, if_true, List.length_cons, List.count_cons_self, hk]
    · simp only [retained, if_true, addressesOf, List.flatMap_cons, List.cons_append,
        List.nil_append]
      refine (hAp.append_right _).trans ?_
      rw [List.append_assoc]
      refine List.Perm.append_left F ?_
      exact (perm_push_two _ _ _ []).trans (by simp [addressesOf])
    · simp only [retained, if_true, buffersOf, List.flatMap_cons, List.cons_append,
        List.nil_append]
      refine hL.trans ?_
      exact perm_push_two _ _ _ _
  | @dropped i0 rest T h its ms T2 h2 e0 hfind hrest ih =>
    obtain ⟨A, F, hA, hF, hAb, hAn, hAl, hFl, hk, hAp, hL⟩ := ih
    refine ⟨A ++ [h.brk + max T.dsize_key_ 1, h.brk], F ++ [h.brk + max T.dsize_key_ 1, h.brk],
      ?_, ?_, ?_, ?_, ?_, ?_, ?_, ?_, ?_⟩
    · rw [hA]; simp [heapDropped]
    · rw [hF]; simp [heapDropped]
    · intro a ha
      rcases List.mem_append.mp ha with ha | ha
      · have := hAb a ha
        simp only [heapDropped] at this
        omega
      · simp only [List.mem_cons, List.mem_singleton, List.not_mem_nil, or_false] at ha
        omega
    · rw [List.nodup_append]
      refine ⟨hAn, by simp, ?_⟩
      intro a ha hb
      have := hAb a ha
      simp only [heapDropped] at this
      simp only [List.mem_cons, List.mem_singleton, List.not_mem_nil, or_false] at hb
      omega
    · simp only [List.length_append, List.length_cons, List.length_nil, hAl]
      omega
    · simp only [retained, List.length_append, List.length_cons, List.length_nil]
      simp only [Nat.zero_ne_one, if_false]
      omega
    · simp only [retained, Nat.zero_ne_one, if_false, hk]
      rw [List.count_cons_of_ne (by decide)]
    · simp only [retained, Nat.zero_ne_one, if_false]
      refine (hAp.append_right _).trans ?_
      rw [List.append_assoc, List.append_assoc]
      exact List.Perm.append_left F List.perm_append_comm
    · simp only [retained, Nat.zero_ne_one, if_false]
      exact hL

/-! ## C4: no leak in `Insert` -/

theorem buffersOf_length (T : CPUHashmap) (won : List iterator_t) :
    (buffersOf T won).length = 2 * won.length := by
  induction won with
  | nil => rfl
  | cons x rest ih =>
    simp only [buffersOf, List.flatMap_cons, List.length_append, List.length_cons,
      List.length_nil] at ih ⊢
    omega

/-- C4: no leak. For every valid table state and every batch of `n` elements
for which `Insert` returned (every allocation succeeded), with `k` masks equal
to `1`: the live buffers after the call are the live buffers before it plus
exactly the `2 k` key and value buffers of the `k` handles with mask `1`; `2 n`
distinct addresses `A` were allocated during the call, and the addresses `F`
freed during the call are the `2 (n - k)` addresses of `A` that are not behind
a retained handle, each freed exactly once and none of them live afterwards. -/
theorem Insert_no_leak (T : CPUHashmap) (h : Heap)
    (input_keys input_values input_key_size : Nat) (hV : Valid T h)
    (iterators : List iterator_t) (masks : List Nat) (T2 : CPUHashmap) (h2 : Heap)
    (hins : T.Insert h input_keys input_values input_key_size
      = ⟨Except.ok (iterators, masks), T2, h2⟩) :
    ∃ A F, h2.allocated = A ++ h.allocated ∧ h2.freed = F ++ h.freed ∧
      (buffersOf T (retained iterators masks)).length = 2 * masks.count 1 ∧
      h2.live.Perm (buffersOf T (retained iterators masks) ++ h.live) ∧
      (h2.live.map Prod.fst).Nodup ∧
      A.length = 2 * input_key_size ∧ A.Nodup ∧
      A.Perm (F ++ addressesOf (retained iterators masks)) ∧
      F.length = 2 * (input_key_size - masks.count 1) ∧
      (∀ a ∈ F, F.count a = 1) ∧
      (∀ a ∈ F, a ∉ h2.live.map Prod.fst) := by
  have hrun := InsertLoop_ok_run input_keys input_values _ T h _ _ _ _ hV hins
  obtain ⟨hV2, _⟩ := hrun.valid_extends hV
  obtain ⟨A, F, hA, hF, hAb, hAn, hAl, hFl, hk, hAp, hL⟩ := hrun.logs
  rw [List.length_range] at hAl hFl
  have hFW : (F ++ addressesOf (retained iterators masks)).Nodup := hAp.nodup_iff.mp hAn
  have hFn : F.Nodup := (List.nodup_append.mp hFW).1
  refine ⟨A, F, hA, hF, by rw [buffersOf_length, hk], hL, hV2.live_nodup, hAl, hAn, hAp,
    by omega, ?_, ?_⟩
  · intro a ha
    exact List.count_eq_one_of_mem hFn ha
  · intro a ha hlive
    obtain ⟨b, hb, hba⟩ := List.mem_map.mp hlive
    rcases List.mem_append.mp (hL.subset hb) with hw | hold
    · have hdis := (List.nodup_append.mp hFW).2.2
      apply hdis ha
      simp only [buffersOf, List.mem_flatMap, List.mem_cons, List.mem_singleton,
        List.not_mem_nil, or_false] at hw
      obtain ⟨x, hx, hbx⟩ := hw
      simp only [addressesOf, List.mem_flatMap, List.mem_cons, List.mem_singleton,
        List.not_mem_nil, or_false]
      refine ⟨x, hx, ?_⟩
      rcases hbx with rfl | rfl
      · exact Or.inl hba.symm
      · exact Or.inr hba.symm
    · have h1 := hV.live_lt b hold
      have h2 := hAb a (hAp.symm.subset (List.mem_append_left _ ha))
      omega

theorem Insert_no_leak_witness :
    Valid scenarioTable scenarioHeap ∧
    scenarioTable.Insert scenarioHeap 16 32 3
      = ⟨Except.ok ([⟨64, 68⟩, ⟨72, 76⟩, iterator_t.empty], [1, 1, 0]),
          scenarioAfter.table, scenarioAfter.heap⟩ ∧
    ∃ A F, scenarioAfter.heap.allocated = A ++ scenarioHeap.allocated ∧
      scenarioAfter.heap.freed = F ++ scenarioHeap.freed ∧
      (buffersOf scenarioTable
        (retained [⟨64, 68⟩, ⟨72, 76⟩, iterator_t.empty] [1, 1, 0])).length
        = 2 * [1, 1, 0].count 1 ∧
      scenarioAfter.heap.live.Perm
        (buffersOf scenarioTable (retained [⟨64, 68⟩, ⟨72, 76⟩, iterator_t.empty] [1, 1, 0])
          ++ scenarioHeap.live) ∧
      (scenarioAfter.heap.live.map Prod.fst).Nodup ∧
      A.length = 2 * 3 ∧ A.Nodup ∧
      A.Perm (F ++ addressesOf (retained [⟨64, 68⟩, ⟨72, 76⟩, iterator_t.empty] [1, 1, 0])) ∧
      F.length = 2 * (3 - [1, 1, 0].count 1) ∧
      (∀ a ∈ F, F.count a = 1) ∧
      (∀ a ∈ F, a ∉ scenarioAfter.heap.live.map Prod.fst) :=
  ⟨scenario_valid, scenario_insert,
    Insert_no_leak scenarioTable scenarioHeap 16 32 3 scenario_valid _ _ _ _ scenario_insert⟩

/-- The scenario of the spec on the allocator: six buffers allocated, the two
of the duplicate key freed, four live. -/
theorem scenario_heap :
    scenarioAfter.heap.allocated = [84, 80, 76, 72, 68, 64] ∧
    scenarioAfter.heap.freed = [84, 80] ∧
    scenarioAfter.heap.live = [(76, 4), (72, 4), (68, 4), (64, 4)] := by
  decide

/-! ## C5: duplicate keys in one batch -/

/-- Among pairwise incompatible elements, a property one of them has counts
exactly once. -/
theorem countP_eq_one_of_pairwise {α : Type} (p : α → Bool) :
    ∀ (l : List α), l.Pairwise (fun a b => ¬ (p a = true ∧ p b = true)) →
      (∃ a ∈ l, p a = true) → l.countP p = 1
  | [], _, hex => by
    obtain ⟨a, ha, _⟩ := hex
    cases ha
  | a :: l, hpw, hex => by
    rw [List.pairwise_cons] at hpw
    by_cases hpa : p a = true
    · have hz : l.countP p = 0 := by
        rw [List.countP_eq_zero]
        intro b hb hpb
        exact hpw.1 b hb ⟨hpa, hpb⟩
      rw [List.countP_cons_of_pos _ _ hpa, hz]
    · rw [List.countP_cons_of_neg _ _ hpa]
      apply countP_eq_one_of_pairwise p l hpw.2
      obtain ⟨b, hb, hpb⟩ := hex
      rcases List.mem_cons.mp hb with rfl | hb
      · exact absurd hpb hpa
      · exact ⟨b, hb, hpb⟩

/-- In a valid table exactly one stored pair has the key bytes of a stored
key. -/
theorem CPUHashmap.Valid.count_key {T : CPUHashmap} {h : Heap} (hV : Valid T h) {e : Nat × Nat}
    (he : e ∈ T.cpu_hashmap_impl_) (K : List Nat)
    (hK : readBytes h.mem e.1 T.dsize_key_ = K) :
    T.cpu_hashmap_impl_.countP (fun e2 => decide (readBytes h.mem e2.1 T.dsize_key_ = K)) = 1 := by
  apply countP_eq_one_of_pairwise
  · refine List.Pairwise.imp ?_ hV.unique
    intro a b hab hc
    rw [KeyEq_eq_false] at hab
    simp only [decide_eq_true_eq] at hc
    exact hab (hc.1.trans hc.2.symm)
  · exact ⟨e, he, by simp only [hK, decide_True]⟩

theorem list_eq_pair {α : Type} {l : List α} {a b : α} (hlen : l.length = 2)
    (h0 : l[0]? = some a) (h1 : l[1]? = some b) : l = [a, b] := by
  match l, hlen with
  | [x, y], _ =>
    simp only [List.getElem?_cons_zero, List.getElem?_cons_succ, Option.some.injEq] at h0 h1
    rw [h0, h1]

/-- C5: duplicate-in-batch tie-break. For every valid table that stores no
key equal to `K`, `Insert` of a batch of two records that both carry the key
`K` returns the masks `[1, 0]`, a non-empty first handle and the empty sentinel
as second handle, and afterwards exactly one stored entry has a key equal to
`K`. -/
theorem Insert_duplicate_in_batch (T : CPUHashmap) (h : Heap) (input_keys input_values : Nat)
    (hV : Valid T h) (hB : BatchBelow T h input_keys input_values (List.range 2))
    (hroom : h.brk + 2 * stride T ≤ h.limit)
    (hsame : keyAt T h input_keys 0 = keyAt T h input_keys 1)
    (hnew : ∀ e ∈ T.cpu_hashmap_impl_,
      KeyEq T.dsize_key_ h.mem e.1 (T.src_key input_keys 0) = false) :
    ∃ x T2 h2,
      T.Insert h input_keys input_values 2
        = ⟨Except.ok ([x, iterator_t.empty], [1, 0]), T2, h2⟩ ∧
      x ≠ iterator_t.empty ∧
      T2.cpu_hashmap_impl_.countP
        (fun e => decide (readBytes h2.mem e.1 T.dsize_key_ = keyAt T h input_keys 0)) = 1 := by
  have hroom1 : h.brk + (List.range 2).length * stride T ≤ h.limit := by
    rw [List.length_range]; exact hroom
  obtain ⟨its, ms, T2, h2, hl, hrun⟩ := InsertLoop_returns input_keys input_values
    (List.range 2) T h hV (range_ne_INT_MAX (by decide)) hroom1
  obtain ⟨hV2, hE⟩ := hrun.valid_extends hV
  have hlen := hrun.length
  rw [List.length_range] at hlen
  have hs0 := hrun.spec hV hB 0 0 rfl
  have hs1 := hrun.spec hV hB 1 1 rfl
  have hf0 : Fresh T h input_keys ((List.range 2).take 0) 0 := ⟨hnew, by simp⟩
  have hf1 : ¬ Fresh T h input_keys ((List.range 2).take 1) 1 := by
    rintro ⟨_, hc⟩
    have := hc 0 (by decide)
    rw [KeyEq_eq_false] at this
    exact this hsame
  obtain ⟨hm0, x, hx, hx1, _, hx2, _, hx4, _⟩ := hs0.1 hf0
  obtain ⟨hm1, hx0⟩ := hs1.2 hf1
  refine ⟨x, T2, h2, ?_, ?_, ?_⟩
  · rw [CPUHashmap.Insert, hl, list_eq_pair hlen.1 hx hx0, list_eq_pair hlen.2 hm0 hm1]
  · intro hc
    rw [hc] at hx2
    have := hV.brk_pos
    simp only [iterator_t.empty] at hx2
    omega
  · have := hV2.count_key hx1 (keyAt T h input_keys 0) (by rw [hE.dsize_key]; exact hx4)
    rw [hE.dsize_key] at this
    exact this

theorem scenario_batch_zero : BatchBelow scenarioTable scenarioHeap 4 32 (List.range 2) := by
  unfold BatchBelow
  decide

theorem Insert_duplicate_in_batch_witness :
    Valid scenarioTable scenarioHeap ∧
    BatchBelow scenarioTable scenarioHeap 4 32 (List.range 2) ∧
    scenarioHeap.brk + 2 * stride scenarioTable ≤ scenarioHeap.limit ∧
    keyAt scenarioTable scenarioHeap 4 0 = keyAt scenarioTable scenarioHeap 4 1 ∧
    (∀ e ∈ scenarioTable.cpu_hashmap_impl_,
      KeyEq scenarioTable.dsize_key_ scenarioHeap.mem e.1 (scenarioTable.src_key 4 0) = false) ∧
    ∃ x T2 h2,
      scenarioTable.Insert scenarioHeap 4 32 2
        = ⟨Except.ok ([x, iterator_t.empty], [1, 0]), T2, h2⟩ ∧
      x ≠ iterator_t.empty ∧
      T2.cpu_hashmap_impl_.countP
        (fun e => decide (readBytes h2.mem e.1 scenarioTable.dsize_key_
          = keyAt scenarioTable scenarioHeap 4 0)) = 1 :=
  ⟨scenario_valid, scenario_batch_zero, by decide, by decide, by decide,
    Insert_duplicate_in_batch scenarioTable scenarioHeap 4 32 scenario_valid
      scenario_batch_zero (by decide) (by decide) (by decide)⟩

/-! ## C6 and C9: key uniqueness; the destructor -/

/-- C6: key uniqueness is an invariant. In the empty table made by the
constructor and after any sequence of `Insert`, `Search` and `Remove` calls
(every reachable state), no two distinct stored entries have keys that compare
equal under `KeyEq` over their first `dsize_key` bytes. -/
theorem key_uniqueness_invariant (T : CPUHashmap) (h : Heap) (hist : List (List Nat))
    (hR : Reachable T h hist) :
    T.cpu_hashmap_impl_.Pairwise
      (fun e1 e2 => KeyEq T.dsize_key_ h.mem e1.1 e2.1 = false) ∧
    ∀ e1 ∈ T.cpu_hashmap_impl_, ∀ e2 ∈ T.cpu_hashmap_impl_, e1 ≠ e2 →
      KeyEq T.dsize_key_ h.mem e1.1 e2.1 = false := by
  obtain ⟨hV, _, _⟩ := hR.inv
  refine ⟨hV.unique, ?_⟩
  intro e1 h1 e2 h2 hne
  rw [KeyEq_eq_false]
  exact fun hk => hne (hV.entry_unique h1 h2 hk)

theorem key_uniqueness_invariant_witness :
    Reachable scenarioAfter.table scenarioAfter.heap
      ([] ++ (List.range 3).map (keyAt scenarioTable scenarioHeap 16)) ∧
    (scenarioAfter.table.cpu_hashmap_impl_.Pairwise
      (fun e1 e2 => KeyEq scenarioAfter.table.dsize_key_ scenarioAfter.heap.mem e1.1 e2.1
        = false) ∧
    ∀ e1 ∈ scenarioAfter.table.cpu_hashmap_impl_,
      ∀ e2 ∈ scenarioAfter.table.cpu_hashmap_impl_, e1 ≠ e2 →
        KeyEq scenarioAfter.table.dsize_key_ scenarioAfter.heap.mem e1.1 e2.1 = false) :=
  ⟨scenario_reachable,
    key_uniqueness_invariant scenarioAfter.table scenarioAfter.heap _ scenario_reachable⟩

/-- In every reachable state the destructor frees nothing: `kv_pairs_` is
empty. -/
theorem dtor_reachable {T : CPUHashmap} {h : Heap} {hist : List (List Nat)}
    (hR : Reachable T h hist) : T.dtor h = h := by
  obtain ⟨_, _, hp⟩ := hR.inv
  simp only [CPUHashmap.dtor, hp, List.foldl_nil]

/-- C9 (the code at the failing input): in the scenario of the spec, after
`Insert` retained two entries, the destructor frees none of their four
buffers: they are all still live, and the only addresses ever freed are the
two buffers `Insert` itself released for the duplicate key. -/
theorem dtor_scenario_leaks :
    scenarioAfter.table.cpu_hashmap_impl_ = [(72, 76), (64, 68)] ∧
    scenarioAfter.table.kv_pairs_ = [] ∧
    (scenarioAfter.table.dtor scenarioAfter.heap).live
      = [(76, 4), (72, 4), (68, 4), (64, 4)] ∧
    (scenarioAfter.table.dtor scenarioAfter.heap).freed = [84, 80] := by
  decide

/-! ## C10: allocation failure in `Insert` -/

/-- The loop of `Insert` over two index lists in a row: when the first part
returns, the whole is the second part run from the state the first leaves. -/
theorem InsertLoop_append (ik iv : Nat) (l2 : List Nat) :
    ∀ (l1 : List Nat) (T : CPUHashmap) (h : Heap) (its1 : List iterator_t) (ms1 : List Nat)
      (T1 : CPUHashmap) (h1 : Heap),
      InsertLoop ik iv l1 T h = ⟨Except.ok (its1, ms1), T1, h1⟩ →
      InsertLoop ik iv (l1 ++ l2) T h =
        match InsertLoop ik iv l2 T1 h1 with
        | ⟨Except.error e, T2, h2⟩ => ⟨Except.error e, T2, h2⟩
        | ⟨Except.ok (its2, ms2), T2, h2⟩ => ⟨Except.ok (its1 ++ its2, ms1 ++ ms2), T2, h2⟩
  | [], T, h, its1, ms1, T1, h1, hl => by
    simp only [InsertLoop, Run.mk.injEq, Except.ok.injEq, Prod.mk.injEq] at hl
    obtain ⟨⟨rfl, rfl⟩, rfl, rfl⟩ := hl
    rcases hr : InsertLoop ik iv l2 T h with ⟨res, T2, h2⟩
    cases res with
    | error e => simp only [List.nil_append, hr]
    | ok r => simp only [List.nil_append, hr]
  | i :: l1, T, h, its1, ms1, T1, h1, hl => by
    rcases hb : InsertBody T h ik iv i with ⟨res, Tb, hb2⟩
    cases res with
    | error e =>
      rw [InsertLoop_cons_error hb] at hl
      simp at hl
    | ok r =>
      by_cases hi : i = INT_MAX
      · rw [InsertLoop_cons_overflow hb hi] at hl
        simp at hl
      · rw [InsertLoop_cons_ok hb hi] at hl
        rw [List.cons_append, InsertLoop_cons_ok hb hi]
        rcases hrest : InsertLoop ik iv l1 Tb hb2 with ⟨res2, T3, h3⟩
        rw [hrest] at hl
        cases res2 with
        | error e => simp at hl
        | ok r2 =>
          obtain ⟨its3, ms3⟩ := r2
          simp only [Run.mk.injEq, Except.ok.injEq, Prod.mk.injEq] at hl
          obtain ⟨⟨rfl, rfl⟩, rfl, rfl⟩ := hl
          rw [InsertLoop_append ik iv l2 l1 Tb hb2 its3 ms3 T3 h3 hrest]
          rcases hr : InsertLoop ik iv l2 T3 h3 with ⟨res4, T4, h4⟩
          cases res4 with
          | error e => rfl
          | ok r4 => rfl

theorem range_split {i n : Nat} (hi : i < n) :
    List.range n = List.range i ++ i :: List.range' (i + 1) (n - i - 1) := by
  have h1 := List.range'_append 0 i (n - i) 1
  have h2 := List.range'_succ i (n - i - 1) 1
  rw [show n - i - 1 + 1 = n - i by omega] at h2
  rw [show n - i + i = n by omega, show 0 + 1 * i = i by omega, h2] at h1
  rw [List.range_eq_range', List.range_eq_range', h1]

/-- C10 (counterexample): on the tight heap, `Insert` of the scenario batch
commits element 0, allocates the key buffer of element 1 at address 72, and
fails to allocate its value buffer: the failure reaches the caller with the
key buffer of element 1 still live and never freed. -/
theorem Insert_failure_keeps_key_buffer :
    (scenarioTable.Insert tightHeap 16 32 3).result
      = Except.error Exception.AllocationFailure ∧
    (scenarioTable.Insert tightHeap 16 32 3).table.cpu_hashmap_impl_ = [(64, 68)] ∧
    (scenarioTable.Insert tightHeap 16 32 3).heap.allocated = [72, 68, 64] ∧
    (72, 4) ∈ (scenarioTable.Insert tightHeap 16 32 3).heap.live ∧
    72 ∉ (scenarioTable.Insert tightHeap 16 32 3).heap.freed := by
  decide

/-- C10 (amended): when the elements before `i` have been processed and the
heap has no room for the two buffers of element `i`, `Insert` fails with an
allocation failure and leaves the table as the elements before `i` left it,
valid, with every byte of memory and the release log unchanged: nothing is
freed on the way. If the key buffer of element `i` could still be allocated
(the value allocation fails), that key buffer stays live; if not, the heap is
untouched. -/
theorem Insert_allocation_failure (T : CPUHashmap) (h : Heap)
    (input_keys input_values input_key_size i : Nat) (hV : Valid T h)
    (hi : i < input_key_size)
    (iterators : List iterator_t) (masks : List Nat) (T1 : CPUHashmap) (h1 : Heap)
    (hpre : T.Insert h input_keys input_values i = ⟨Except.ok (iterators, masks), T1, h1⟩)
    (hfail : ¬ (h1.brk + stride T ≤ h1.limit)) :
    ∃ h2, T.Insert h input_keys input_values input_key_size
        = ⟨Except.error Exception.AllocationFailure, T1, h2⟩ ∧
      Valid T1 h2 ∧ h2.mem = h1.mem ∧ h2.freed = h1.freed ∧
      (h1.brk + max T.dsize_key_ 1 ≤ h1.limit →
        h2.live = (h1.brk, T.dsize_key_) :: h1.live ∧
        h2.allocated = h1.brk :: h1.allocated) ∧
      (¬ (h1.brk + max T.dsize_key_ 1 ≤ h1.limit) → h2 = h1) := by
  have hrun := InsertLoop_ok_run input_keys input_values _ T h _ _ _ _ hV hpre
  obtain ⟨hV1, hE⟩ := hrun.valid_extends hV
  have hst : stride T1 = stride T := by
    simp only [stride, hE.dsize_key, hE.dsize_value]
  have happ := InsertLoop_append input_keys input_values
    (i :: List.range' (i + 1) (input_key_size - i - 1)) _ T h _ _ _ _ hpre
  rw [← range_split hi] at happ
  by_cases hkey : h1.brk + max T.dsize_key_ 1 ≤ h1.limit
  · have hb := InsertBody_fail_value input_keys input_values i
      (by rw [hE.dsize_key]; exact hkey) (by rw [hst]; exact hfail)
    refine ⟨heapLeaked T1 h1, ?_, Valid_leaked hV1, rfl, rfl, ?_, fun hc => absurd hkey hc⟩
    · rw [CPUHashmap.Insert, happ, InsertLoop_cons_error hb]
    · intro _
      simp only [heapLeaked, hE.dsize_key, and_self]
  · have hb := InsertBody_fail_key input_keys input_values i
      (by rw [hE.dsize_key]; exact hkey)
    refine ⟨h1, ?_, hV1, rfl, rfl, fun hc => absurd hc hkey, fun _ => rfl⟩
    rw [CPUHashmap.Insert, happ, InsertLoop_cons_error hb]

theorem tight_valid : Valid scenarioTable tightHeap := by
  refine ⟨?_, ?_, ?_, ?_, ?_, ?_⟩ <;> decide

theorem tight_insert_one :
    scenarioTable.Insert tightHeap 16 32 1
      = ⟨Except.ok ([⟨64, 68⟩], [1]), tightAfterOne.table, tightAfterOne.heap⟩ := rfl

theorem Insert_allocation_failure_witness :
    Valid scenarioTable tightHeap ∧ 1 < 3 ∧
    scenarioTable.Insert tightHeap 16 32 1
      = ⟨Except.ok ([⟨64, 68⟩], [1]), tightAfterOne.table, tightAfterOne.heap⟩ ∧
    ¬ (tightAfterOne.heap.brk + stride scenarioTable ≤ tightAfterOne.heap.limit) ∧
    ∃ h2, scenarioTable.Insert tightHeap 16 32 3
        = ⟨Except.error Exception.AllocationFailure, tightAfterOne.table, h2⟩ ∧
      Valid tightAfterOne.table h2 ∧ h2.mem = tightAfterOne.heap.mem ∧
      h2.freed = tightAfterOne.heap.freed ∧
      (tightAfterOne.heap.brk + max scenarioTable.dsize_key_ 1 ≤ tightAfterOne.heap.limit →
        h2.live = (tightAfterOne.heap.brk, scenarioTable.dsize_key_) :: tightAfterOne.heap.live ∧
        h2.allocated = tightAfterOne.heap.brk :: tightAfterOne.heap.allocated) ∧
      (¬ (tightAfterOne.heap.brk + max scenarioTable.dsize_key_ 1 ≤ tightAfterOne.heap.limit) →
        h2 = tightAfterOne.heap) :=
  ⟨tight_valid, by decide, tight_insert_one, by decide,
    Insert_allocation_failure scenarioTable tightHeap 16 32 3 1 tight_valid (by decide)
      _ _ _ _ tight_insert_one (by decide)⟩

/-! ## C12 and C15: the empty batch; the stride -/

/-- C12: `Insert` with `n = 0` is a no-op: for every table and heap it
returns empty handle and mask outputs and leaves the table (entry store
included) and the heap (live buffers, allocation and release logs, memory)
exactly as they were; `Search` with `n = 0` likewise returns empty outputs and
leaves the table and the heap as they were (its two `std::malloc` requests are
for 0 bytes). -/
theorem Insert_Search_zero (T : CPUHashmap) (h : Heap) (input_keys input_values : Nat) :
    T.Insert h input_keys input_values 0 = ⟨Except.ok ([], []), T, h⟩ ∧
    T.Search h input_keys 0 = ⟨⟨Except.ok ([], []), T, h⟩, [0, 0]⟩ :=
  ⟨rfl, rfl⟩

/-- When the product `dsize_key_ * i` fits 32 bits, the key of index `i` is
read at the exact offset `i * dsize_key_`. -/
theorem src_key_exact (T : CPUHashmap) (input_keys i : Nat)
    (hfit : T.dsize_key_ * i < UINT32_MOD) :
    T.src_key input_keys i = input_keys + i * T.dsize_key_ := by
  rw [src_key, Nat.mod_eq_of_lt hfit, Nat.mul_comm]

/-- When the product `dsize_value_ * i` fits 32 bits, the value of index `i`
is read at the exact offset `i * dsize_value_`. -/
theorem src_value_exact (T : CPUHashmap) (input_values i : Nat)
    (hfit : T.dsize_value_ * i < UINT32_MOD) :
    T.src_value input_values i = input_values + i * T.dsize_value_ := by
  rw [src_value, Nat.mod_eq_of_lt hfit, Nat.mul_comm]

/-- C15 (the code at the failing input): with 64 KiB records, `dsize_key`,
`dsize_value` and the index 65536 all fit 32 bits, yet the offsets of index
65536 wrap to 0 instead of `65536 * 65536 = 2 ^ 32`: `Insert` and `Search`
process element 65536 exactly as they process element 0, reading the key and
the value of record 0. -/
theorem stride_wraps_at_65536 (h : Heap) (input_keys input_values : Nat) :
    wideTable.dsize_key_ < UINT32_MOD ∧ wideTable.dsize_value_ < UINT32_MOD ∧
    65536 < UINT32_MOD ∧ 65536 * wideTable.dsize_key_ = UINT32_MOD ∧
    wideTable.src_key input_keys 65536 = input_keys ∧
    wideTable.src_value input_values 65536 = input_values ∧
    wideTable.src_key input_keys 65536 ≠ input_keys + 65536 * wideTable.dsize_key_ ∧
    wideTable.src_value input_values 65536
      ≠ input_values + 65536 * wideTable.dsize_value_ ∧
    wideTable.InsertBody h input_keys input_values 65536
      = wideTable.InsertBody h input_keys input_values 0 ∧
    wideTable.SearchBody h input_keys 65536 = wideTable.SearchBody h input_keys 0 := by
  have hk : wideTable.src_key input_keys 65536 = input_keys := by
    simp [src_key, wideTable, CreateCPUHashmap, CPUHashmap.ctor, UINT32_MOD]
  have hv : wideTable.src_value input_values 65536 = input_values := by
    simp [src_value, wideTable, CreateCPUHashmap, CPUHashmap.ctor, UINT32_MOD]
  have hk0 : wideTable.src_key input_keys 0 = input_keys := by simp [src_key]
  have hv0 : wideTable.src_value input_values 0 = input_values := by simp [src_value]
  refine ⟨by decide, by decide, by decide, by decide, hk, hv, ?_, ?_, ?_, ?_⟩
  · rw [hk]
    simp [wideTable, CreateCPUHashmap, CPUHashmap.ctor]
  · rw [hv]
    simp [wideTable, CreateCPUHashmap, CPUHashmap.ctor]
  · simp only [InsertBody, hk, hv, hk0, hv0]
  · simp only [SearchBody, hk, hk0]

/-! ## C17: the loop counter -/

/-- A loop of `Search` whose indices reach `INT_MAX` ends in the overflow of
the counter. -/
theorem SearchLoop_overflow (ik : Nat) (T : CPUHashmap) (h : Heap) :
    ∀ (idx : List Nat), INT_MAX ∈ idx →
      (SearchLoop ik idx T h).result = Except.error Exception.SignedOverflow
  | [], hm => by cases hm
  | i :: rest, hm => by
    by_cases hi : i = INT_MAX
    · simp only [SearchLoop, hi, if_true]
    · have hr : INT_MAX ∈ rest := by
        rcases List.mem_cons.mp hm with hc | hc
        · exact absurd hc.symm hi
        · exact hc
      have ih := SearchLoop_overflow ik T h rest hr
      simp only [SearchLoop, hi, if_false]
      rcases hs : SearchLoop ik rest T h with ⟨res, T2, h2⟩
      rw [hs] at ih
      simp only at ih
      subst ih
      rfl

/-- A loop of `Insert` whose indices reach `INT_MAX` never returns: it ends
in an allocation failure or in the overflow of the counter. -/
theorem InsertLoop_overflow (ik iv : Nat) :
    ∀ (idx : List Nat) (T : CPUHashmap) (h : Heap), INT_MAX ∈ idx →
      ∀ r, (InsertLoop ik iv idx T h).result ≠ Except.ok r
  | [], _, _, hm => by cases hm
  | i :: rest, T, h, hm => by
    intro r
    rcases hb : InsertBody T h ik iv i with ⟨res, Tb, hb2⟩
    cases res with
    | error e =>
      rw [InsertLoop_cons_error hb]
      simp
    | ok r1 =>
      by_cases hi : i = INT_MAX
      · rw [InsertLoop_cons_overflow hb hi]
        simp
      · have hr : INT_MAX ∈ rest := by
          rcases List.mem_cons.mp hm with hc | hc
          · exact absurd hc.symm hi
          · exact hc
        have ih := InsertLoop_overflow ik iv rest Tb hb2 hr
        rw [InsertLoop_cons_ok hb hi]
        rcases hs : InsertLoop ik iv rest Tb hb2 with ⟨res2, T2, h2⟩
        rw [hs] at ih
        cases res2 with
        | error e => simp
        | ok r2 => exact absurd rfl (ih r2)

theorem INT_MAX_mem_range {n : Nat} (hn : INT_MAX < n) : INT_MAX ∈ List.range n :=
  List.mem_range.mpr hn

/-- Within the range of the `int` counter `Search` returns `n` handles and
`n` masks, every mask `0` or `1`. -/
theorem Search_shape (T : CPUHashmap) (h : Heap) (ik n : Nat) (hn : n ≤ INT_MAX) :
    ∃ its ms, (T.Search h ik n).toRun = ⟨Except.ok (its, ms), T, h⟩ ∧ its.length = n ∧
      ms.length = n ∧ ∀ m ∈ ms, m = 0 ∨ m = 1 := by
  refine ⟨_, _, Search_eq T h ik n hn, by simp, by simp, ?_⟩
  intro m hm
  obtain ⟨i, _, rfl⟩ := List.mem_map.mp hm
  unfold SearchBody
  split
  · exact Or.inl rfl
  · exact Or.inr rfl

/-- C17 (the code at the failing input): the count `2 ^ 31` fits an unsigned
32-bit integer, yet neither loop runs to completion: after the iteration with
`i = INT_MAX` the increment of the `int` counter overflows. `Search` ends in
that overflow, and `Insert` returns handles and masks on no heap, however
large. -/
theorem loops_overflow_at_2_pow_31 :
    2147483648 < UINT32_MOD ∧
    (scenarioTable.Search scenarioHeap 48 2147483648).result
      = Except.error Exception.SignedOverflow ∧
    ∀ (h : Heap) (r : List iterator_t × List Nat),
      (scenarioTable.Insert h 16 32 2147483648).result ≠ Except.ok r :=
  ⟨by decide,
    SearchLoop_overflow 48 scenarioTable scenarioHeap _ (INT_MAX_mem_range (by decide)),
    fun h => InsertLoop_overflow 16 32 _ scenarioTable h (INT_MAX_mem_range (by decide))⟩

/-! ## C16: `Insert` only adds entries -/

/-- A run stores one pair more for every mask equal to `1`. -/
theorem InsertRun.count {ik iv : Nat} {idx : List Nat} {T T2 : CPUHashmap} {h h2 : Heap}
    {its : List iterator_t} {ms : List Nat} (hrun : InsertRun ik iv idx T h its ms T2 h2) :
    T2.cpu_hashmap_impl_.length = T.cpu_hashmap_impl_.length + ms.count 1 := by
  induction hrun with
  | done => simp
  | kept _ _ ih =>
    rw [ih]
    simp only [tableKept, List.length_cons, List.count_cons_self]
    omega
  | dropped _ _ _ ih =>
    rw [ih, List.count_cons_of_ne (by decide)]

/-- C16: `Insert` only adds entries. For every valid table state and every
batch on which `Insert` returns, each pair stored before the call is still
stored after it, with the same key-buffer and value-buffer addresses, both
buffers still live and holding the same bytes; and the number of stored pairs
after the call is the number before plus the number of masks equal to `1`. -/
theorem Insert_only_adds (T : CPUHashmap) (h : Heap)
    (input_keys input_values input_key_size : Nat) (hV : Valid T h)
    (iterators : List iterator_t) (masks : List Nat) (T2 : CPUHashmap) (h2 : Heap)
    (hins : T.Insert h input_keys input_values input_key_size
      = ⟨Except.ok (iterators, masks), T2, h2⟩) :
    (∀ e ∈ T.cpu_hashmap_impl_,
      e ∈ T2.cpu_hashmap_impl_ ∧
      (e.1, T.dsize_key_) ∈ h2.live ∧ (e.2, T.dsize_value_) ∈ h2.live ∧
      readBytes h2.mem e.1 T.dsize_key_ = readBytes h.mem e.1 T.dsize_key_ ∧
      readBytes h2.mem e.2 T.dsize_value_ = readBytes h.mem e.2 T.dsize_value_) ∧
    T2.cpu_hashmap_impl_.length = T.cpu_hashmap_impl_.length + masks.count 1 := by
  have hrun := InsertLoop_ok_run input_keys input_values _ T h _ _ _ _ hV hins
  obtain ⟨hV2, hE⟩ := hrun.valid_extends hV
  refine ⟨?_, hrun.count⟩
  intro e he
  obtain ⟨news, hnews, _⟩ := hE.impl_ext
  have he2 : e ∈ T2.cpu_hashmap_impl_ := by
    rw [hnews]; exact List.mem_append_right _ he
  have hown := hV2.owned e he2
  rw [hE.dsize_key, hE.dsize_value] at hown
  exact ⟨he2, hown.1, hown.2, readBytes_frame hE.frame (hV.key_below he).2,
    readBytes_frame hE.frame (hV.value_below he).2⟩

theorem scenario_after_valid : Valid scenarioAfter.table scenarioAfter.heap :=
  scenario_reachable.inv.1

theorem scenario_later_insert :
    scenarioAfter.table.Insert scenarioAfter.heap 48 32 2
      = ⟨Except.ok ([iterator_t.empty, ⟨96, 100⟩], [0, 1]),
          scenarioLater.table, scenarioLater.heap⟩ := rfl

theorem Insert_only_adds_witness :
    Valid scenarioAfter.table scenarioAfter.heap ∧
    scenarioAfter.table.Insert scenarioAfter.heap 48 32 2
      = ⟨Except.ok ([iterator_t.empty, ⟨96, 100⟩], [0, 1]),
          scenarioLater.table, scenarioLater.heap⟩ ∧
    ((∀ e ∈ scenarioAfter.table.cpu_hashmap_impl_,
      e ∈ scenarioLater.table.cpu_hashmap_impl_ ∧
      (e.1, scenarioAfter.table.dsize_key_) ∈ scenarioLater.heap.live ∧
      (e.2, scenarioAfter.table.dsize_value_) ∈ scenarioLater.heap.live ∧
      readBytes scenarioLater.heap.mem e.1 scenarioAfter.table.dsize_key_
        = readBytes scenarioAfter.heap.mem e.1 scenarioAfter.table.dsize_key_ ∧
      readBytes scenarioLater.heap.mem e.2 scenarioAfter.table.dsize_value_
        = readBytes scenarioAfter.heap.mem e.2 scenarioAfter.table.dsize_value_) ∧
    scenarioLater.table.cpu_hashmap_impl_.length
      = scenarioAfter.table.cpu_hashmap_impl_.length + [0, 1].count 1) :=
  ⟨scenario_after_valid, scenario_later_insert,
    Insert_only_adds scenarioAfter.table scenarioAfter.heap 48 32 2 scenario_after_valid
      _ _ _ _ scenario_later_insert⟩

/-! ## C19: inserting the same batch again -/

/-- After a run every key of the batch is stored: some stored pair holds the
key bytes of each record. -/
theorem InsertRun.covered {ik iv : Nat} {idx : List Nat} {T T2 : CPUHashmap} {h h2 : Heap}
    {its : List iterator_t} {ms : List Nat} (hrun : InsertRun ik iv idx T h its ms T2 h2)
    (hV : Valid T h) (hB : BatchBelow T h ik iv idx) :
    ∀ i ∈ idx, ∃ e ∈ T2.cpu_hashmap_impl_,
      readBytes h2.mem e.1 T.dsize_key_ = keyAt T h ik i := by
  induction hrun with
  | done => intro i hi; cases hi
  | @kept i0 rest T h its ms T2 h2 hfind hrest ih =>
    have hV1 := Valid_kept hV ik iv i0 hfind
    obtain ⟨_, hE⟩ := hrest.valid_extends hV1
    obtain ⟨news, hnews, _⟩ := hE.impl_ext
    intro i hi
    rcases List.mem_cons.mp hi with rfl | hi
    · refine ⟨(h.brk, h.brk + max T.dsize_key_ 1), ?_, ?_⟩
      · rw [hnews]
        exact List.mem_append_right _ (List.mem_cons_self _ _)
      · rw [readBytes_frame hE.frame (by simp only [heapKept]; omega)]
        exact copied_key T h ik iv i
    · obtain ⟨e, he, hk⟩ := ih hV1 (BatchBelow_kept i0 hB) i hi
      rw [keyAt_kept T h ik iv i0 i (hB i (List.mem_cons_of_mem _ hi)).1] at hk
      exact ⟨e, he, hk⟩
  | @dropped i0 rest T h its ms T2 h2 e0 hfind hrest ih =>
    have hV1 := Valid_dropped hV ik iv i0
    obtain ⟨_, hE⟩ := hrest.valid_extends hV1
    obtain ⟨news, hnews, _⟩ := hE.impl_ext
    intro i hi
    rcases List.mem_cons.mp hi with rfl | hi
    · obtain ⟨he0, hk0⟩ := find_eq_some hfind
      refine ⟨e0, by rw [hnews]; exact List.mem_append_right _ he0, ?_⟩
      have hlt : e0.1 + T.dsize_key_ ≤ (heapDropped T h ik iv i).brk := by
        have := (hV.key_below he0).2
        simp only [heapDropped]
        omega
      rw [readBytes_frame hE.frame hlt]
      exact (readBytes_frame (copied_frame T h ik iv i) (hV.key_below he0).2).trans hk0
    · obtain ⟨e, he, hk⟩ := ih hV1 (BatchBelow_dropped i0 hB) i hi
      rw [keyAt_dropped T h ik iv i0 i (hB i (List.mem_cons_of_mem _ hi)).1] at hk
      exact ⟨e, he, hk⟩

/-- When every key of the batch is already stored, the loop of `Insert`
retains nothing: every mask is `0`, every handle is the empty sentinel, the
table and the live buffers are the ones it found, and memory below the old
`brk` keeps its bytes. -/
theorem InsertLoop_all_dropped (ik iv : Nat) (T : CPUHashmap) :
    ∀ (idx : List Nat) (h : Heap), Valid T h → BatchBelow T h ik iv idx →
      (∀ i ∈ idx, i ≠ INT_MAX) → h.brk + idx.length * stride T ≤ h.limit →
      (∀ i ∈ idx, ∃ e ∈ T.cpu_hashmap_impl_,
        readBytes h.mem e.1 T.dsize_key_ = keyAt T h ik i) →
      ∃ h3, InsertLoop ik iv idx T h
          = ⟨Except.ok (List.replicate idx.length iterator_t.empty,
              List.replicate idx.length 0), T, h3⟩ ∧
        h3.live = h.live ∧ h.brk ≤ h3.brk ∧ ∀ a, a < h.brk → h3.mem a = h.mem a
  | [], h, _, _, _, _, _ => ⟨h, rfl, rfl, Nat.le_refl _, fun _ _ => rfl⟩
  | i :: rest, h, hV, hB, hidx, hroom, hcov => by
    have hi : i ≠ INT_MAX := hidx i (List.mem_cons_self _ _)
    simp only [List.length_cons, Nat.add_mul, Nat.one_mul] at hroom
    obtain ⟨e, he, hke⟩ := hcov i (List.mem_cons_self _ _)
    rcases InsertBody_cases hV ik iv i with ⟨hc, _⟩ | ⟨_, hc, _⟩ | ⟨_, hn, _⟩ | ⟨_, _, hb⟩
    · exact absurd (by unfold stride at hroom; omega) hc
    · exact absurd (by omega) hc
    · have := find_eq_none hn e he
      rw [KeyEq_eq_false] at this
      exact absurd hke this
    · have hV1 := Valid_dropped hV ik iv i
      have hroom1 : (heapDropped T h ik iv i).brk + rest.length * stride T
          ≤ (heapDropped T h ik iv i).limit := by
        simp only [heapDropped, stride] at hroom ⊢
        omega
      have hcov1 : ∀ j ∈ rest, ∃ e ∈ T.cpu_hashmap_impl_,
          readBytes (heapDropped T h ik iv i).mem e.1 T.dsize_key_
            = keyAt T (heapDropped T h ik iv i) ik j := by
        intro j hj
        obtain ⟨e2, he2, hk2⟩ := hcov j (List.mem_cons_of_mem _ hj)
        refine ⟨e2, he2, ?_⟩
        rw [keyAt_dropped T h ik iv i j (hB j (List.mem_cons_of_mem _ hj)).1, ← hk2]
        exact readBytes_frame (copied_frame T h ik iv i) (hV.key_below he2).2
      obtain ⟨h3, hl, hlive, hbrk, hframe⟩ := InsertLoop_all_dropped ik iv T rest _ hV1
        (BatchBelow_dropped i hB) (fun j hj => hidx j (List.mem_cons_of_mem _ hj)) hroom1 hcov1
      refine ⟨h3, ?_, hlive, ?_, ?_⟩
      · rw [InsertLoop_cons_returned hb hi hl]
        rfl
      · simp only [heapDropped] at hbrk
        omega
      · intro a ha
        rw [hframe a (by simp only [heapDropped]; omega)]
        exact copied_frame T h ik iv i a ha

theorem Extends.src_key {T T2 : CPUHashmap} {h h2 : Heap} (hE : Extends T h T2 h2)
    (ik i : Nat) : T2.src_key ik i = T.src_key ik i := by
  simp only [CPUHashmap.src_key, hE.dsize_key]

theorem Extends.src_value {T T2 : CPUHashmap} {h h2 : Heap} (hE : Extends T h T2 h2)
    (iv i : Nat) : T2.src_value iv i = T.src_value iv i := by
  simp only [CPUHashmap.src_value, hE.dsize_value]

theorem Extends.stride {T T2 : CPUHashmap} {h h2 : Heap} (hE : Extends T h T2 h2) :
    stride T2 = stride T := by
  simp only [CPUHashmap.stride, hE.dsize_key, hE.dsize_value]

theorem Extends.batchBelow {T T2 : CPUHashmap} {h h2 : Heap} (hE : Extends T h T2 h2)
    {ik iv : Nat} {idx : List Nat} (hB : BatchBelow T h ik iv idx) :
    BatchBelow T2 h2 ik iv idx := by
  intro i hi
  have h1 := hB i hi
  have h2 := hE.brk_le
  rw [hE.src_key, hE.src_value, hE.dsize_key, hE.dsize_value]
  omega

theorem Extends.keyAt {T T2 : CPUHashmap} {h h2 : Heap} (hE : Extends T h T2 h2)
    {ik i : Nat} (hi : T.src_key ik i + T.dsize_key_ ≤ h.brk) :
    keyAt T2 h2 ik i = keyAt T h ik i := by
  unfold CPUHashmap.keyAt
  rw [hE.src_key, hE.dsize_key]
  exact readBytes_frame hE.frame hi

theorem Extends.valueAt {T T2 : CPUHashmap} {h h2 : Heap} (hE : Extends T h T2 h2)
    {iv i : Nat} (hi : T.src_value iv i + T.dsize_value_ ≤ h.brk) :
    valueAt T2 h2 iv i = valueAt T h iv i := by
  unfold CPUHashmap.valueAt
  rw [hE.src_value, hE.dsize_value]
  exact readBytes_frame hE.frame hi

/-- A loop of `Insert` that returned met no index at `INT_MAX`. -/
theorem InsertLoop_ok_ne_INT_MAX {ik iv : Nat} {idx : List Nat} {T T2 : CPUHashmap}
    {h h2 : Heap} {r : List iterator_t × List Nat}
    (hl : InsertLoop ik iv idx T h = ⟨Except.ok r, T2, h2⟩) : ∀ i ∈ idx, i ≠ INT_MAX := by
  intro i hi hc
  subst hc
  have := InsertLoop_overflow ik iv idx T h hi r
  rw [hl] at this
  exact this rfl

/-- C19: re-inserting is idempotent on the store. For every valid table state
and every batch (arrays below `brk`) on which `Insert` returned, a second
`Insert` of the same batch from the state the first call left (with room in
the heap for its transient buffers) returns masks that are all `0` and handles
that are all the empty sentinel, and leaves the table, the live buffers and
the bytes of every stored key and value exactly as they were after the first
call. -/
theorem Insert_twice (T : CPUHashmap) (h : Heap)
    (input_keys input_values input_key_size : Nat) (hV : Valid T h)
    (hB : BatchBelow T h input_keys input_values (List.range input_key_size))
    (iterators : List iterator_t) (masks : List Nat) (T2 : CPUHashmap) (h2 : Heap)
    (hins : T.Insert h input_keys input_values input_key_size
      = ⟨Except.ok (iterators, masks), T2, h2⟩)
    (hroom : h2.brk + input_key_size * stride T ≤ h2.limit) :
    ∃ h3, T2.Insert h2 input_keys input_values input_key_size
        = ⟨Except.ok (List.replicate input_key_size iterator_t.empty,
            List.replicate input_key_size 0), T2, h3⟩ ∧
      h3.live = h2.live ∧
      ∀ e ∈ T2.cpu_hashmap_impl_,
        readBytes h3.mem e.1 T2.dsize_key_ = readBytes h2.mem e.1 T2.dsize_key_ ∧
        readBytes h3.mem e.2 T2.dsize_value_ = readBytes h2.mem e.2 T2.dsize_value_ := by
  have hrun := InsertLoop_ok_run input_keys input_values _ T h _ _ _ _ hV hins
  obtain ⟨hV2, hE⟩ := hrun.valid_extends hV
  have hcov := hrun.covered hV hB
  have hcov2 : ∀ i ∈ List.range input_key_size, ∃ e ∈ T2.cpu_hashmap_impl_,
      readBytes h2.mem e.1 T2.dsize_key_ = keyAt T2 h2 input_keys i := by
    intro i hi
    obtain ⟨e, he, hk⟩ := hcov i hi
    refine ⟨e, he, ?_⟩
    rw [hE.keyAt (hB i hi).1, hE.dsize_key]
    exact hk
  have hroom2 : h2.brk + (List.range input_key_size).length * stride T2 ≤ h2.limit := by
    rw [List.length_range, hE.stride]; exact hroom
  obtain ⟨h3, hl, hlive, _, hframe⟩ := InsertLoop_all_dropped input_keys input_values T2
    (List.range input_key_size) h2 hV2 (hE.batchBelow hB) (InsertLoop_ok_ne_INT_MAX hins)
    hroom2 hcov2
  rw [List.length_range] at hl
  refine ⟨h3, hl, hlive, ?_⟩
  intro e he
  exact ⟨readBytes_frame hframe (hV2.key_below he).2,
    readBytes_frame hframe (hV2.value_below he).2⟩

theorem Insert_twice_witness :
    Valid scenarioTable scenarioHeap ∧
    BatchBelow scenarioTable scenarioHeap 16 32 (List.range 3) ∧
    scenarioTable.Insert scenarioHeap 16 32 3
      = ⟨Except.ok ([⟨64, 68⟩, ⟨72, 76⟩, iterator_t.empty], [1, 1, 0]),
          scenarioAfter.table, scenarioAfter.heap⟩ ∧
    scenarioAfter.heap.brk + 3 * stride scenarioTable ≤ scenarioAfter.heap.limit ∧
    ∃ h3, scenarioAfter.table.Insert scenarioAfter.heap 16 32 3
        = ⟨Except.ok (List.replicate 3 iterator_t.empty, List.replicate 3 0),
            scenarioAfter.table, h3⟩ ∧
      h3.live = scenarioAfter.heap.live ∧
      ∀ e ∈ scenarioAfter.table.cpu_hashmap_impl_,
        readBytes h3.mem e.1 scenarioAfter.table.dsize_key_
          = readBytes scenarioAfter.heap.mem e.1 scenarioAfter.table.dsize_key_ ∧
        readBytes h3.mem e.2 scenarioAfter.table.dsize_value_
          = readBytes scenarioAfter.heap.mem e.2 scenarioAfter.table.dsize_value_ :=
  ⟨scenario_valid, scenario_batch, scenario_insert, by decide,
    Insert_twice scenarioTable scenarioHeap 16 32 3 scenario_valid scenario_batch
      _ _ _ _ scenario_insert (by decide)⟩

/-! ## C18: one batch or two calls -/

/-- For a packed batch whose byte sizes fit 32 bits, the records `m`, `m + 1`,
... of the batch are the records `0`, `1`, ... read from the base pointers
advanced by `m` records. -/
theorem packed_split (T : CPUHashmap) (ik iv n m : Nat)
    (hk : T.dsize_key_ * n < UINT32_MOD) (hv : T.dsize_value_ * n < UINT32_MOD) :
    ∀ j, j < n - m →
      T.src_key (ik + m * T.dsize_key_) j = T.src_key ik (m + j) ∧
      T.src_value (iv + m * T.dsize_value_) j = T.src_value iv (m + j) := by
  intro j hj
  have h1 : T.dsize_key_ * j ≤ T.dsize_key_ * n := Nat.mul_le_mul_left _ (by omega)
  have h2 : T.dsize_key_ * (m + j) ≤ T.dsize_key_ * n := Nat.mul_le_mul_left _ (by omega)
  have h3 : T.dsize_value_ * j ≤ T.dsize_value_ * n := Nat.mul_le_mul_left _ (by omega)
  have h4 : T.dsize_value_ * (m + j) ≤ T.dsize_value_ * n :=
    Nat.mul_le_mul_left _ (by omega)
  rw [src_key_exact T _ j (by omega), src_key_exact T _ (m + j) (by omega),
    src_value_exact T _ j (by omega), src_value_exact T _ (m + j) (by omega)]
  constructor
  · rw [Nat.add_mul]; omega
  · rw [Nat.add_mul]; omega

/-- The scenario of the spec in two calls: the first record alone, then the
other two, give the masks `[1]` and `[1, 0]`. -/
theorem scenario_split :
    (scenarioTable.Insert scenarioHeap 16 32 1).result = Except.ok ([⟨64, 68⟩], [1]) ∧
    ((scenarioTable.Insert scenarioHeap 16 32 1).table.Insert
        (scenarioTable.Insert scenarioHeap 16 32 1).heap 20 36 2).result
      = Except.ok ([⟨72, 76⟩, iterator_t.empty], [1, 0]) := by
  decide

/-! ## C13: the first occurrence keeps its value -/

/-- The scenario of the spec: after `Insert` of the keys `[1, 2, 1]` with the
values `[10, 20, 30]`, the value stored for the key `1` is `10`, not `30`. -/
theorem scenario_first_value :
    (scenarioAfter.table.Search scenarioAfter.heap 16 1).result
      = Except.ok ([⟨64, 68⟩], [1]) ∧
    readBytes scenarioAfter.heap.mem 68 4 = le32 10 := by
  decide

/-! ## C11: `Search` returns the stored buffers -/

/-- Later states are valid, keep the record sizes, and keep every stored pair
with the bytes of its key and value. -/
theorem Later.preserved {T T3 : CPUHashmap} {h h3 : Heap} (hL : Later T h T3 h3) (hV : Valid T h) :
    Valid T3 h3 ∧ T3.dsize_key_ = T.dsize_key_ ∧ T3.dsize_value_ = T.dsize_value_ ∧
    ∀ e ∈ T.cpu_hashmap_impl_, e ∈ T3.cpu_hashmap_impl_ ∧
      readBytes h3.mem e.1 T.dsize_key_ = readBytes h.mem e.1 T.dsize_key_ ∧
      readBytes h3.mem e.2 T.dsize_value_ = readBytes h.mem e.2 T.dsize_value_ := by
  induction hL with
  | refl => exact ⟨hV, rfl, rfl, fun e he => ⟨he, rfl, rfl⟩⟩
  | @insert T3 h3 ik iv n _ _ ih =>
    obtain ⟨hV3, hk, hv, hent⟩ := ih
    obtain ⟨hV4, hE⟩ := InsertLoop_extends ik iv (List.range n) T3 h3 hV3
    refine ⟨hV4, hE.dsize_key.trans hk, hE.dsize_value.trans hv, ?_⟩
    intro e he
    obtain ⟨he3, hb1, hb2⟩ := hent e he
    obtain ⟨news, hnews, _⟩ := hE.impl_ext
    refine ⟨?_, ?_, ?_⟩
    · rw [CPUHashmap.Insert, hnews]
      exact List.mem_append_right _ he3
    · rw [← hb1]
      refine readBytes_frame hE.frame ?_
      rw [← hk]
      exact (hV3.key_below he3).2
    · rw [← hb2]
      refine readBytes_frame hE.frame ?_
      rw [← hv]
      exact (hV3.value_below he3).2
  | @search T3 h3 ik n _ ih =>
    have hs := SearchLoop_state ik (List.range n) T3 h3
    rw [CPUHashmap.Search, hs.1, hs.2]
    exact ih
  | remove _ _ _ ih => exact ih
  | @write T3 h3 mem2 _ hown ih =>
    obtain ⟨hV3, hk, hv, hent⟩ := ih
    refine ⟨hV3.write mem2 hown, hk, hv, ?_⟩
    intro e he
    obtain ⟨he3, hb1, hb2⟩ := hent e he
    refine ⟨he3, ?_, ?_⟩
    · rw [← hb1, ← hk]
      exact readBytes_congr (hown e he3).1
    · rw [← hb2, ← hv]
      exact readBytes_congr (hown e he3).2

/-- The body of `Search` on a key whose bytes are those of a stored key gives
mask `1` and the handle of the stored pair. -/
theorem SearchBody_hit {T : CPUHashmap} {h : Heap} (hV : Valid T h) {e : Nat × Nat}
    (he : e ∈ T.cpu_hashmap_impl_) (q j : Nat)
    (hq : keyAt T h q j = readBytes h.mem e.1 T.dsize_key_) :
    SearchBody T h q j = (⟨e.1, e.2⟩, 1) := by
  have hfind : T.cpu_hashmap_impl_.find T.dsize_key_ h.mem (T.src_key q j) = some e := by
    cases hc : T.cpu_hashmap_impl_.find T.dsize_key_ h.mem (T.src_key q j) with
    | none =>
      have := find_eq_none hc e he
      rw [KeyEq_eq_false] at this
      exact absurd hq.symm this
    | some e2 =>
      obtain ⟨he2, hk2⟩ := find_eq_some hc
      rw [hV.entry_unique he2 he (hk2.trans hq)]
  simp only [SearchBody, hfind]

/-- The handle `Insert` returned at an index with mask `1` is a stored pair
whose key buffer holds the key bytes of that record. -/
theorem InsertRun.handle_stored {ik iv n : Nat} {T T2 : CPUHashmap} {h h2 : Heap}
    {its : List iterator_t} {ms : List Nat}
    (hrun : InsertRun ik iv (List.range n) T h its ms T2 h2) (hV : Valid T h)
    (hB : BatchBelow T h ik iv (List.range n)) {i : Nat} {x : iterator_t}
    (hx : its[i]? = some x) (hm : ms[i]? = some 1) :
    i < n ∧ (x.first, x.second) ∈ T2.cpu_hashmap_impl_ ∧
      (x.first, x.second) ∉ T.cpu_hashmap_impl_ ∧ h.brk ≤ x.first ∧ h.brk ≤ x.second ∧
      readBytes h2.mem x.first T.dsize_key_ = keyAt T h ik i ∧
      readBytes h2.mem x.second T.dsize_value_ = valueAt T h iv i := by
  have hi : i < n := by
    have h1 := hrun.length.2
    rw [List.length_range] at h1
    by_contra hc
    rw [List.getElem?_eq_none (by omega)] at hm
    cases hm
  have hs := hrun.spec hV hB i i (List.getElem?_range hi)
  by_cases hf : Fresh T h ik ((List.range n).take i) i
  · obtain ⟨_, y, hy, hy1, hy0, hy2, hy3, hy4, hy5⟩ := hs.1 hf
    rw [hx] at hy
    cases hy
    exact ⟨hi, hy1, hy0, hy2, hy3, hy4, hy5⟩
  · have := (hs.2 hf).1
    rw [hm] at this
    cases this

/-- C11: on a hit, `Search` returns the table-owned buffers and never the
caller's. For every valid table state and every batch (arrays below `brk`) on which `Insert` returned
the handle `x` with mask `1` for a record with key bytes `K`, in every later
state every `Search` element whose key bytes are `K` gets mask `1` and the
handle `x` itself: the same key-buffer and value-buffer addresses, which are
the two live buffers of a stored pair. Those addresses are not inside the key
array passed to `Search`, which is the caller's own memory: it overlaps no
buffer owned by the table. -/
theorem Search_returns_stored_buffers (T : CPUHashmap) (h : Heap)
    (input_keys input_values input_key_size : Nat) (hV : Valid T h)
    (hB : BatchBelow T h input_keys input_values (List.range input_key_size))
    (iterators : List iterator_t) (masks : List Nat) (T2 : CPUHashmap) (h2 : Heap)
    (hins : T.Insert h input_keys input_values input_key_size
      = ⟨Except.ok (iterators, masks), T2, h2⟩)
    (i : Nat) (x : iterator_t) (hx : iterators[i]? = some x) (hmask : masks[i]? = some 1)
    (T3 : CPUHashmap) (h3 : Heap) (hL : Later T2 h2 T3 h3)
    (search_keys search_size j : Nat) (hn : search_size ≤ INT_MAX) (hj : j < search_size)
    (hK : keyAt T3 h3 search_keys j = keyAt T h input_keys i) :
    ∃ its3 ms3, (T3.Search h3 search_keys search_size).result = Except.ok (its3, ms3) ∧
      ms3[j]? = some 1 ∧ its3[j]? = some x ∧
      (x.first, x.second) ∈ T3.cpu_hashmap_impl_ ∧
      (x.first, T.dsize_key_) ∈ h3.live ∧ (x.second, T.dsize_value_) ∈ h3.live ∧
      ((∀ a, InKeyArray T3 search_keys search_size a → ¬ Owned T3 a) →
        ¬ InKeyArray T3 search_keys search_size x.first ∧
        ¬ InKeyArray T3 search_keys search_size x.second) := by
  have hrun := InsertLoop_ok_run input_keys input_values _ T h _ _ _ _ hV hins
  obtain ⟨hV2, hE⟩ := hrun.valid_extends hV
  obtain ⟨_, hx1, _, _, _, hx4, _⟩ := hrun.handle_stored hV hB hx hmask
  obtain ⟨hV3, hk3, hv3, hent⟩ := hL.preserved hV2
  obtain ⟨hx3, hb3, _⟩ := hent _ hx1
  have hk : T3.dsize_key_ = T.dsize_key_ := hk3.trans hE.dsize_key
  have hv : T3.dsize_value_ = T.dsize_value_ := hv3.trans hE.dsize_value
  have hbody : SearchBody T3 h3 search_keys j = (x, 1) := by
    refine SearchBody_hit hV3 hx3 search_keys j ?_
    rw [hK, hk, ← hx4, ← hE.dsize_key]
    exact hb3.symm
  have hown := hV3.owned _ hx3
  rw [hk, hv] at hown
  refine ⟨_, _, by rw [Search_eq T3 h3 search_keys search_size hn], ?_, ?_, hx3,
    hown.1, hown.2, ?_⟩
  · rw [List.getElem?_map, List.getElem?_range hj, Option.map_some', hbody]
  · rw [List.getElem?_map, List.getElem?_range hj, Option.map_some', hbody]
  · intro hcaller
    constructor
    · intro hin
      exact hcaller _ hin ⟨_, hx3, Or.inl ⟨Nat.le_refl _, by simp only; omega⟩⟩
    · intro hin
      exact hcaller _ hin ⟨_, hx3, Or.inr ⟨Nat.le_refl _, by simp only; omega⟩⟩

/-- In the scenario the search keys at address 48 are the caller's own
memory: they overlap no buffer owned by the table. -/
theorem scenario_search_array_unowned :
    ∀ a, InKeyArray scenarioLater.table 48 2 a → ¬ Owned scenarioLater.table a := by
  have himpl : scenarioLater.table.cpu_hashmap_impl_ = [(96, 100), (72, 76), (64, 68)] := by
    decide
  have hdk : scenarioLater.table.dsize_key_ = 4 := rfl
  have hdv : scenarioLater.table.dsize_value_ = 4 := rfl
  rintro a ⟨i, hi, h1, h2⟩ ⟨e, he, h3⟩
  have hsrc : scenarioLater.table.src_key 48 i ≤ 52 := by
    have : i = 0 ∨ i = 1 := by omega
    rcases this with rfl | rfl <;> decide
  rw [himpl] at he
  rw [hdk] at h2
  rw [hdk, hdv] at h3
  simp only [List.mem_cons, List.mem_singleton, List.not_mem_nil, or_false] at he
  rcases he with rfl | rfl | rfl <;> simp only at h3 <;> omega

theorem scenario_later : Later scenarioAfter.table scenarioAfter.heap
    scenarioLater.table scenarioLater.heap :=
  Later.insert 48 32 2 (Later.refl _ _) (by decide)

theorem Search_returns_stored_buffers_witness :
    Valid scenarioTable scenarioHeap ∧
    BatchBelow scenarioTable scenarioHeap 16 32 (List.range 3) ∧
    scenarioTable.Insert scenarioHeap 16 32 3
      = ⟨Except.ok ([⟨64, 68⟩, ⟨72, 76⟩, iterator_t.empty], [1, 1, 0]),
          scenarioAfter.table, scenarioAfter.heap⟩ ∧
    [(⟨64, 68⟩ : iterator_t), ⟨72, 76⟩, iterator_t.empty][1]? = some ⟨72, 76⟩ ∧
    [1, 1, 0][1]? = some 1 ∧
    Later scenarioAfter.table scenarioAfter.heap scenarioLater.table scenarioLater.heap ∧
    2 ≤ INT_MAX ∧ 0 < 2 ∧
    keyAt scenarioLater.table scenarioLater.heap 48 0 = keyAt scenarioTable scenarioHeap 16 1 ∧
    (∀ a, InKeyArray scenarioLater.table 48 2 a → ¬ Owned scenarioLater.table a) ∧
    ∃ its3 ms3, (scenarioLater.table.Search scenarioLater.heap 48 2).result
        = Except.ok (its3, ms3) ∧
      ms3[0]? = some 1 ∧ its3[0]? = some ⟨72, 76⟩ ∧
      ((⟨72, 76⟩ : iterator_t).first, (⟨72, 76⟩ : iterator_t).second)
        ∈ scenarioLater.table.cpu_hashmap_impl_ ∧
      ((⟨72, 76⟩ : iterator_t).first, scenarioTable.dsize_key_) ∈ scenarioLater.heap.live ∧
      ((⟨72, 76⟩ : iterator_t).second, scenarioTable.dsize_value_)
        ∈ scenarioLater.heap.live ∧
      ((∀ a, InKeyArray scenarioLater.table 48 2 a → ¬ Owned scenarioLater.table a) →
        ¬ InKeyArray scenarioLater.table 48 2 (⟨72, 76⟩ : iterator_t).first ∧
        ¬ InKeyArray scenarioLater.table 48 2 (⟨72, 76⟩ : iterator_t).second) :=
  ⟨scenario_valid, scenario_batch, scenario_insert, by decide, by decide, scenario_later,
    by decide, by decide, by decide, scenario_search_array_unowned,
    Search_returns_stored_buffers scenarioTable scenarioHeap 16 32 3 scenario_valid
      scenario_batch _ _ _ _ scenario_insert 1 ⟨72, 76⟩ (by decide) (by decide)
      scenarioLater.table scenarioLater.heap scenario_later 48 2 0 (by decide) (by decide)
      (by decide)⟩

/-! ## C14: every stored buffer is an independent copy -/

end open3d
